import Mathlib

/-!
Verification of the similarity-index core of `find_duplicates.py`:
a BK-tree over 64-bit perceptual fingerprints (`BKTree`), the
fingerprint-to-files registry (`ImageHashIndex.hash_to_files` /
`file_mtimes`), the incremental maintenance operations
(`add_image`, `_remove_deleted_files`), the two query modes
(`find_duplicates`, `find_all_duplicate_groups`) and the persistence
codec (`save_index` / `load_index`).

The embedding is shallow: each Python method is translated into a pure
Lean function over explicit state.  File I/O, image decoding and hashing
are external to the verified core: the hash of an image enters the model
as an opaque 64-bit fingerprint argument, and the on-disk index file is
modelled as a datatype whose constructors cover the error classes the
code distinguishes (`zipfile.BadZipFile`/`pickle.UnpicklingError`-style
container corruption, `KeyError` on missing payload entries, `ValueError`
from `reshape` on a wrong byte width, and any other unexpected error).
-/

/-- File paths (compared by equality; `os.path.basename` is passed in as an
abstract function where needed). -/
abbrev FPath := String

/-- Modification times.  The code only ever compares mtimes for equality,
so any type with decidable equality is a faithful model of the float. -/
abbrev Mtime := Nat

/-- Fingerprint width: `phash` produces an 8×8 boolean array, 64 bits. -/
def FPw : Nat := 64

/-- A fingerprint: the 8×8 boolean hash array, flattened to 64 bits.
`ImageHash.__eq__` is `np.array_equal`, i.e. bitwise value equality. -/
def FP := { l : List Bool // l.length = FPw }

instance : DecidableEq FP := Subtype.instDecidableEq

/-- Hamming distance on bit lists: `ImageHash.__sub__` counts the positions
where the two flattened hash arrays differ. -/
def hammingL : List Bool → List Bool → Nat
  | [], _ => 0
  | _ :: _, [] => 0
  | a :: as, b :: bs => (if a = b then 0 else 1) + hammingL as bs

/-- The distance function the index installs in its BK-tree
(`distance_func=lambda h1, h2: h1 - h2`). -/
def hdist (a b : FP) : Nat := hammingL a.1 b.1

theorem hammingL_comm : ∀ a b : List Bool, hammingL a b = hammingL b a
  | [], [] => rfl
  | [], _ :: _ => rfl
  | _ :: _, [] => rfl
  | a :: as, b :: bs => by
    have hab : (a = b) ↔ (b = a) := eq_comm
    simp only [hammingL, hammingL_comm as bs, hab]

theorem hammingL_self : ∀ a : List Bool, hammingL a a = 0
  | [] => rfl
  | a :: as => by simp [hammingL, hammingL_self as]

theorem hammingL_eq_zero : ∀ a b : List Bool, a.length = b.length →
    (hammingL a b = 0 ↔ a = b)
  | [], [], _ => by simp [hammingL]
  | a :: as, b :: bs, h => by
    have hl : as.length = bs.length := by simpa using h
    simp only [hammingL]
    by_cases hab : a = b
    · simp [hab, hammingL_eq_zero as bs hl]
    · simp [hab]

theorem hammingL_triangle : ∀ a b c : List Bool, a.length = b.length →
    b.length = c.length → hammingL a c ≤ hammingL a b + hammingL b c
  | [], [], [], _, _ => by simp [hammingL]
  | a :: as, b :: bs, c :: cs, hab, hbc => by
    have h1 : as.length = bs.length := by simpa using hab
    have h2 : bs.length = cs.length := by simpa using hbc
    have ih := hammingL_triangle as bs cs h1 h2
    simp only [hammingL]
    have hh : (if a = c then 0 else 1) ≤ (if a = b then 0 else 1) + (if b = c then 0 else 1) := by
      rcases a <;> rcases b <;> rcases c <;> simp
    omega

theorem hdist_comm (a b : FP) : hdist a b = hdist b a := hammingL_comm a.1 b.1

theorem hdist_self (a : FP) : hdist a a = 0 := hammingL_self a.1

theorem hdist_eq_zero {a b : FP} : hdist a b = 0 ↔ a = b := by
  rw [hdist, hammingL_eq_zero a.1 b.1 (a.2.trans b.2.symm)]
  exact ⟨fun h => Subtype.ext h, fun h => by rw [h]⟩

theorem hdist_triangle (a b c : FP) : hdist a c ≤ hdist a b + hdist b c :=
  hammingL_triangle a.1 b.1 c.1 (a.2.trans b.2.symm) (b.2.trans c.2.symm)

/-! ## The BK-tree

A node is `(item, children)` where `children` is the Python dict from
integer distance to child node.  Dict iteration order is never observed
(`add` and `search` access the dict only by key), so the dict is modelled
as an association list with unique keys. -/

inductive BKNode where
  | mk (item : FP) (children : List (Nat × BKNode))

def BKNode.item : BKNode → FP
  | ⟨it, _⟩ => it

def BKNode.children : BKNode → List (Nat × BKNode)
  | ⟨_, cs⟩ => cs

/- The body of `BKTree.add`'s descent loop, together with the `size`
increment decision: the returned boolean is true exactly when a new node
was created.  `addChildren` walks the children dict looking for the key
`d` (`if distance in children`), descending if found. -/
mutual
def BKNode.addB (x : FP) : BKNode → BKNode × Bool
  | ⟨it, cs⟩ =>
    let d := hdist x it
    if d = 0 then (⟨it, cs⟩, false)
    else match addChildren x d cs with
      | some r => (⟨it, r.1⟩, r.2)
      | none => (⟨it, cs ++ [(d, ⟨x, []⟩)]⟩, true)

def addChildren (x : FP) (d : Nat) : List (Nat × BKNode) → Option (List (Nat × BKNode) × Bool)
  | [] => none
  | (l, c) :: rest =>
    if l = d then
      let r := BKNode.addB x c
      some ((l, r.1) :: rest, r.2)
    else match addChildren x d rest with
      | some r => some ((l, c) :: r.1, r.2)
      | none => none
end

/- All fingerprints stored in a subtree. -/
mutual
def BKNode.nodes : BKNode → List FP
  | ⟨it, cs⟩ => it :: nodesChildren cs

def nodesChildren : List (Nat × BKNode) → List FP
  | [] => []
  | (_, c) :: rest => c.nodes ++ nodesChildren rest
end

/- Number of nodes in a subtree (used as the termination measure of the
search loop). -/
mutual
def BKNode.size1 : BKNode → Nat
  | ⟨_, cs⟩ => 1 + sizeChildren cs

def sizeChildren : List (Nat × BKNode) → Nat
  | [] => 0
  | (_, c) :: rest => c.size1 + sizeChildren rest
end

/-- Lookup in the children dict (`children[d]`). -/
def lookupChild (d : Nat) : List (Nat × BKNode) → Option BKNode
  | [] => none
  | (l, c) :: rest => if l = d then some c else lookupChild d rest

/-- The labels scanned by `search`:
`range(distance - threshold, distance + threshold + 1)` in increasing
order.  The Python range may start negative, but negative labels never
occur as dict keys, so truncated subtraction yields exactly the same
hits in the same order. -/
def scanLabels (d t : Nat) : List Nat := List.range' (d - t) (d + t + 1 - (d - t))

/-- The child nodes pushed while visiting a node with query distance `d`:
for each label in scan order, the child at that label if present. -/
def rangeChildren (d t : Nat) (cs : List (Nat × BKNode)) : List BKNode :=
  (scanLabels d t).filterMap (fun l => lookupChild l cs)

theorem lookupChild_eq_some {d : Nat} {cs : List (Nat × BKNode)} {c : BKNode}
    (h : lookupChild d cs = some c) : (d, c) ∈ cs := by
  induction cs with
  | nil => simp [lookupChild] at h
  | cons p rest ih =>
    obtain ⟨l, c'⟩ := p
    rw [lookupChild] at h
    split at h
    · next hl => cases h; exact hl ▸ List.mem_cons_self _ _
    · exact List.mem_cons_of_mem _ (ih h)

theorem mem_rangeChildren {d t : Nat} {cs : List (Nat × BKNode)} {c : BKNode}
    (h : c ∈ rangeChildren d t cs) : ∃ l, (l, c) ∈ cs := by
  obtain ⟨l, _, hl⟩ := List.mem_filterMap.1 h
  exact ⟨l, lookupChild_eq_some hl⟩

theorem sizeChildren_entry {l : Nat} {c : BKNode} {cs : List (Nat × BKNode)}
    (h : (l, c) ∈ cs) : c.size1 ≤ sizeChildren cs := by
  induction cs with
  | nil => simp at h
  | cons p rest ih =>
    obtain ⟨l', c'⟩ := p
    rcases List.mem_cons.1 h with h1 | h1
    · cases h1
      simp only [sizeChildren]
      omega
    · have := ih h1
      simp only [sizeChildren]
      omega

theorem sizeChildren_append (l1 l2 : List (Nat × BKNode)) :
    sizeChildren (l1 ++ l2) = sizeChildren l1 + sizeChildren l2 := by
  induction l1 with
  | nil => simp [sizeChildren]
  | cons p rest ih =>
    obtain ⟨l, c⟩ := p
    simp [sizeChildren, ih]
    omega

/-- `lookupChild` returns the first entry with the given key. -/
theorem lookupChild_split {d : Nat} {cs : List (Nat × BKNode)} {c : BKNode}
    (h : lookupChild d cs = some c) :
    ∃ l1 l2, cs = l1 ++ (d, c) :: l2 ∧ ∀ p ∈ l1, p.1 ≠ d := by
  induction cs with
  | nil => simp [lookupChild] at h
  | cons p rest ih =>
    obtain ⟨l, c'⟩ := p
    rw [lookupChild] at h
    split at h
    · next hl =>
      cases h
      exact ⟨[], rest, by simp [hl], by simp⟩
    · next hl =>
      obtain ⟨l1, l2, heq, hne⟩ := ih h
      refine ⟨(l, c') :: l1, l2, by simp [heq], ?_⟩
      intro p hp
      rcases List.mem_cons.1 hp with h1 | h1
      · subst h1; exact hl
      · exact hne p h1

theorem lookupChild_append_of_ne {d : Nat} {l1 l2 : List (Nat × BKNode)} {e : Nat × BKNode}
    (hne : e.1 ≠ d) :
    lookupChild d (l1 ++ e :: l2) = lookupChild d (l1 ++ l2) := by
  induction l1 with
  | nil =>
    obtain ⟨l, c⟩ := e
    simp only [List.nil_append, lookupChild]
    simp only [ne_eq] at hne
    simp [hne]
  | cons p rest ih =>
    obtain ⟨l, c⟩ := p
    by_cases hl : l = d <;> simp [lookupChild, hl, ih]

/-- Distinct labels hit distinct dict entries, so the total size of the
looked-up children is bounded by the total size of the children list. -/
theorem sum_filterMap_lookup_le (ds : List Nat) (hnd : ds.Nodup) (cs : List (Nat × BKNode)) :
    ((ds.filterMap (fun l => lookupChild l cs)).map BKNode.size1).sum ≤ sizeChildren cs := by
  induction ds generalizing cs with
  | nil => simp
  | cons d rest ih =>
    have hnd' : rest.Nodup := (List.nodup_cons.1 hnd).2
    have hdn : d ∉ rest := (List.nodup_cons.1 hnd).1
    cases hlc : lookupChild d cs with
    | none => simpa [hlc] using ih hnd' cs
    | some c =>
      obtain ⟨l1, l2, heq, _⟩ := lookupChild_split hlc
      have hrw : rest.filterMap (fun l => lookupChild l cs)
          = rest.filterMap (fun l => lookupChild l (l1 ++ l2)) := by
        apply List.filterMap_congr
        intro x hx
        have hxd : x ≠ d := fun h => hdn (h ▸ hx)
        rw [heq]
        exact lookupChild_append_of_ne (Ne.symm hxd)
      have hsz : sizeChildren cs = sizeChildren (l1 ++ l2) + c.size1 := by
        rw [heq, sizeChildren_append, sizeChildren_append]
        simp only [sizeChildren]
        omega
      have := ih hnd' (l1 ++ l2)
      simp only [List.filterMap_cons, hlc, hrw, List.map_cons, List.sum_cons]
      omega

theorem nodup_scanLabels (d t : Nat) : (scanLabels d t).Nodup := by
  unfold scanLabels
  rw [List.range'_eq_map_range]
  exact (List.nodup_range _).map (fun a b h => by omega)

theorem sum_rangeChildren_le (d t : Nat) (cs : List (Nat × BKNode)) :
    ((rangeChildren d t cs).map BKNode.size1).sum ≤ sizeChildren cs :=
  sum_filterMap_lookup_le _ (nodup_scanLabels d t) cs

def stackSize (st : List BKNode) : Nat := (st.map BKNode.size1).sum

/-- Faithful model of `BKTree.search`'s stack loop.  The head of the Lean
list is the top of the stack (Python appends and pops at the end of
`candidates`); the children found in label-scan order are appended, so the
largest label ends on top — i.e. they are reversed onto the front here.
The node is emitted into `results` before its children are pushed. -/
def searchLoop (q : FP) (t : Nat) : List BKNode → List (FP × Nat) → List (FP × Nat)
  | [], acc => acc
  | ⟨it, cs⟩ :: rest, acc =>
    let d := hdist q it
    searchLoop q t ((rangeChildren d t cs).reverse ++ rest)
      (if d ≤ t then acc ++ [(it, d)] else acc)
termination_by st _ => stackSize st
decreasing_by
  simp only [stackSize, List.map_append, List.sum_append, List.map_cons, List.sum_cons,
    List.map_reverse, List.sum_reverse]
  have h1 := sum_rangeChildren_le (hdist q it) t cs
  have h2 : BKNode.size1 ⟨it, cs⟩ = 1 + sizeChildren cs := rfl
  omega

/-- Recursive form of the traversal: the loop processes the node, then the
in-range children in decreasing-label order, each subtree exhaustively
before the next (LIFO order). -/
def searchRec (q : FP) (t : Nat) : BKNode → List (FP × Nat)
  | ⟨it, cs⟩ =>
    let d := hdist q it
    (if d ≤ t then [(it, d)] else []) ++
      (((rangeChildren d t cs).reverse.attach.map
        (fun c => searchRec q t c.1)).flatten)
termination_by n => n.size1
decreasing_by
  obtain ⟨c, hmem⟩ := c
  obtain ⟨l, hl⟩ := mem_rangeChildren (List.mem_reverse.1 hmem)
  have := sizeChildren_entry hl
  simp only [BKNode.size1]
  omega

theorem searchRec_def (q : FP) (t : Nat) (it : FP) (cs : List (Nat × BKNode)) :
    searchRec q t ⟨it, cs⟩ =
      (if hdist q it ≤ t then [(it, hdist q it)] else []) ++
        (((rangeChildren (hdist q it) t cs).reverse.map (searchRec q t)).flatten) := by
  simp only [searchRec]
  congr 1
  rw [List.attach_map_val ((rangeChildren (hdist q it) t cs)).reverse (searchRec q t)]

theorem searchLoop_eq (q : FP) (t : Nat) :
    ∀ (stack : List BKNode) (acc : List (FP × Nat)),
      searchLoop q t stack acc = acc ++ (stack.map (searchRec q t)).flatten
  | [], acc => by rw [searchLoop]; simp
  | ⟨it, cs⟩ :: rest, acc => by
    rw [searchLoop]
    rw [searchLoop_eq q t ((rangeChildren (hdist q it) t cs).reverse ++ rest) _]
    simp only [List.map_cons, List.flatten_cons, List.map_append, List.flatten_append,
      searchRec_def]
    by_cases hle : hdist q it ≤ t <;>
      simp [hle]
termination_by stack _ => stackSize stack
decreasing_by
  simp only [stackSize, List.map_append, List.sum_append, List.map_cons, List.sum_cons,
    List.map_reverse, List.sum_reverse]
  have h1 := sum_rangeChildren_le (hdist q it) t cs
  have h2 : BKNode.size1 ⟨it, cs⟩ = 1 + sizeChildren cs := rfl
  omega

/-- Custom induction principle: to prove a property of every node it
suffices to prove it for a node assuming it for all children. -/
theorem BKNode.ind (P : BKNode → Prop)
    (h : ∀ it cs, (∀ l c, (l, c) ∈ cs → P c) → P (BKNode.mk it cs)) :
    ∀ n, P n
  | ⟨it, cs⟩ => h it cs (fun _ c hm => BKNode.ind P h c)
termination_by n => n.size1
decreasing_by
  have := sizeChildren_entry hm
  have h2 : BKNode.size1 ⟨it, cs⟩ = 1 + sizeChildren cs := rfl
  omega

/-! ## Structural invariant of trees built by `add`

Every child entry `(l, c)` of a node with item `it` satisfies: `l ≠ 0`,
every fingerprint stored in the subtree `c` is at distance exactly `l`
from `it` (insertion descended through this node computing that very
distance), and the child keys are pairwise distinct (dict keys). -/

def keysNodupB : List (Nat × BKNode) → Bool
  | [] => true
  | (l, _) :: rest => rest.all (fun p => p.1 != l) && keysNodupB rest

mutual
def BKNode.wfb : BKNode → Bool
  | ⟨it, cs⟩ => keysNodupB cs && wfChildren it cs

def wfChildren : FP → List (Nat × BKNode) → Bool
  | _, [] => true
  | it, (l, c) :: rest =>
    (l != 0) && c.nodes.all (fun x => hdist x it == l) && c.wfb && wfChildren it rest
end

theorem nodesChildren_append (l1 l2 : List (Nat × BKNode)) :
    nodesChildren (l1 ++ l2) = nodesChildren l1 ++ nodesChildren l2 := by
  induction l1 with
  | nil => simp [nodesChildren]
  | cons p rest ih =>
    obtain ⟨l, c⟩ := p
    simp [nodesChildren, ih]

theorem mem_nodesChildren {x : FP} {cs : List (Nat × BKNode)} :
    x ∈ nodesChildren cs ↔ ∃ l c, (l, c) ∈ cs ∧ x ∈ c.nodes := by
  induction cs with
  | nil => simp [nodesChildren]
  | cons p rest ih =>
    obtain ⟨l, c⟩ := p
    simp only [nodesChildren, List.mem_append, ih, List.mem_cons]
    constructor
    · rintro (hx | ⟨l', c', hm, hx⟩)
      · exact ⟨l, c, Or.inl rfl, hx⟩
      · exact ⟨l', c', Or.inr hm, hx⟩
    · rintro ⟨l', c', hm | hm, hx⟩
      · cases hm; exact Or.inl hx
      · exact Or.inr ⟨l', c', hm, hx⟩

theorem mem_nodes_iff {x it : FP} {cs : List (Nat × BKNode)} :
    x ∈ (BKNode.mk it cs).nodes ↔ x = it ∨ ∃ l c, (l, c) ∈ cs ∧ x ∈ c.nodes := by
  simp only [BKNode.nodes, List.mem_cons, mem_nodesChildren]

theorem wfChildren_mem {it : FP} {cs : List (Nat × BKNode)}
    (h : wfChildren it cs = true) {l : Nat} {c : BKNode} (hm : (l, c) ∈ cs) :
    l ≠ 0 ∧ (∀ x ∈ c.nodes, hdist x it = l) ∧ c.wfb = true := by
  induction cs with
  | nil => simp at hm
  | cons p rest ih =>
    obtain ⟨l', c'⟩ := p
    rw [wfChildren] at h
    simp only [Bool.and_eq_true, List.all_eq_true, bne_iff_ne, ne_eq, beq_iff_eq] at h
    obtain ⟨⟨⟨hl0, hdists⟩, hwf⟩, hrest⟩ := h
    rcases List.mem_cons.1 hm with h1 | h1
    · cases h1
      exact ⟨hl0, hdists, hwf⟩
    · exact ih hrest h1

theorem keysNodupB_cons {l : Nat} {c : BKNode} {rest : List (Nat × BKNode)} :
    keysNodupB ((l, c) :: rest) = true ↔
      (∀ p ∈ rest, p.1 ≠ l) ∧ keysNodupB rest = true := by
  rw [keysNodupB]
  simp

theorem lookupChild_of_mem {cs : List (Nat × BKNode)} (hnd : keysNodupB cs = true)
    {l : Nat} {c : BKNode} (hm : (l, c) ∈ cs) : lookupChild l cs = some c := by
  induction cs with
  | nil => simp at hm
  | cons p rest ih =>
    obtain ⟨l', c'⟩ := p
    obtain ⟨hne, hrest⟩ := keysNodupB_cons.1 hnd
    rcases List.mem_cons.1 hm with h1 | h1
    · cases h1
      simp [lookupChild]
    · have : l' ≠ l := by
        intro he
        exact hne (l, c) h1 (by simp [he])
      rw [lookupChild, if_neg (by simpa using this)]
      exact ih hrest h1

theorem mem_scanLabels {l d t : Nat} : l ∈ scanLabels d t ↔ d - t ≤ l ∧ l ≤ d + t := by
  unfold scanLabels
  rw [List.mem_range'_1]
  omega

theorem mem_rangeChildren_of {cs : List (Nat × BKNode)} (hnd : keysNodupB cs = true)
    {l : Nat} {c : BKNode} (hm : (l, c) ∈ cs) {d t : Nat}
    (h1 : d - t ≤ l) (h2 : l ≤ d + t) : c ∈ rangeChildren d t cs := by
  apply List.mem_filterMap.2
  exact ⟨l, mem_scanLabels.2 ⟨h1, h2⟩, lookupChild_of_mem hnd hm⟩

/-- Soundness of the traversal: everything emitted is a stored fingerprint,
paired with its true distance to the query, within the threshold. -/
theorem searchRec_sound (q : FP) (t : Nat) :
    ∀ (n : BKNode) (y : FP) (dd : Nat), (y, dd) ∈ searchRec q t n →
      y ∈ n.nodes ∧ dd = hdist q y ∧ dd ≤ t := by
  intro n
  induction n using BKNode.ind with
  | _ it cs IH =>
    intro y dd hmem
    rw [searchRec_def] at hmem
    rcases List.mem_append.1 hmem with h | h
    · by_cases hle : hdist q it ≤ t
      · simp only [if_pos hle, List.mem_singleton, Prod.mk.injEq] at h
        obtain ⟨h1, h2⟩ := h
        subst h1; subst h2
        exact ⟨by simp [mem_nodes_iff], rfl, hle⟩
      · simp [if_neg hle] at h
    · obtain ⟨lst, hlst, hy⟩ := List.mem_flatten.1 h
      obtain ⟨c, hc, hrec⟩ := List.mem_map.1 hlst
      obtain ⟨l, hlc⟩ := mem_rangeChildren (List.mem_reverse.1 hc)
      obtain ⟨hyn, hdd, hdt⟩ := IH l c hlc y dd (hrec ▸ hy)
      exact ⟨mem_nodes_iff.2 (Or.inr ⟨l, c, hlc, hyn⟩), hdd, hdt⟩

/-- Completeness of the pruned traversal: on a well-formed tree, every
stored fingerprint within the threshold is emitted.  This is where the
triangle inequality of the Hamming distance justifies the pruning rule
`d - threshold ≤ l ≤ d + threshold`. -/
theorem searchRec_complete (q : FP) (t : Nat) :
    ∀ (n : BKNode), n.wfb = true → ∀ y ∈ n.nodes, hdist q y ≤ t →
      (y, hdist q y) ∈ searchRec q t n := by
  intro n
  induction n using BKNode.ind with
  | _ it cs IH =>
    intro hwf y hy hyt
    rw [BKNode.wfb, Bool.and_eq_true] at hwf
    obtain ⟨hnd, hchild⟩ := hwf
    rw [searchRec_def]
    rcases mem_nodes_iff.1 hy with h | ⟨l, c, hlc, hyc⟩
    · subst h
      rw [List.mem_append]
      exact Or.inl (by simp [hyt])
    · obtain ⟨hl0, hdists, hcw⟩ := wfChildren_mem hchild hlc
      have hyl : hdist y it = l := hdists y hyc
      have hup : l ≤ hdist q it + t := by
        have htri : hdist y it ≤ hdist y q + hdist q it := hdist_triangle y q it
        rw [hdist_comm y q] at htri
        omega
      have hlo : hdist q it - t ≤ l := by
        have htri : hdist q it ≤ hdist q y + hdist y it := hdist_triangle q y it
        omega
      have hcr : c ∈ (rangeChildren (hdist q it) t cs).reverse :=
        List.mem_reverse.2 (mem_rangeChildren_of hnd hlc hlo hup)
      refine List.mem_append.2 (Or.inr (List.mem_flatten.2 ⟨searchRec q t c, ?_, ?_⟩))
      · exact List.mem_map.2 ⟨c, hcr, rfl⟩
      · exact IH l c hlc hcw y hyc hyt

/-- Unfolded defining equation of `BKNode.addB` on a constructor. -/
theorem addB_def (x it : FP) (cs : List (Nat × BKNode)) :
    BKNode.addB x ⟨it, cs⟩ =
      if hdist x it = 0 then (⟨it, cs⟩, false)
      else match addChildren x (hdist x it) cs with
        | some r => (⟨it, r.1⟩, r.2)
        | none => (⟨it, cs ++ [(hdist x it, ⟨x, []⟩)]⟩, true) := by
  rw [BKNode.addB]

theorem nodes_leaf (x : FP) : (BKNode.mk x []).nodes = [x] := by
  rw [BKNode.nodes, nodesChildren]

/-- Shape of a successful `addChildren`: the first entry keyed `d` has its
child replaced by the recursive insertion, everything else untouched. -/
theorem addChildren_some {x : FP} {d : Nat} :
    ∀ {cs cs' : List (Nat × BKNode)} {b : Bool}, addChildren x d cs = some (cs', b) →
      ∃ pre c suf, cs = pre ++ (d, c) :: suf ∧
        cs' = pre ++ (d, (BKNode.addB x c).1) :: suf ∧
        b = (BKNode.addB x c).2 ∧ ∀ p ∈ pre, p.1 ≠ d := by
  intro cs
  induction cs with
  | nil => intro cs' b h; simp [addChildren] at h
  | cons p rest ih =>
    intro cs' b h
    obtain ⟨l, c⟩ := p
    rw [addChildren] at h
    split at h
    · next hl =>
      subst hl
      simp only [Option.some.injEq] at h
      injection h with h1 h2
      subst h1
      subst h2
      exact ⟨[], c, rest, rfl, rfl, rfl, by simp⟩
    · next hl =>
      rcases hrec : addChildren x d rest with _ | r
      · rw [hrec] at h; simp at h
      · rw [hrec] at h
        simp only [Option.some.injEq] at h
        injection h with h1 h2
        subst h1
        subst h2
        obtain ⟨pre, c', suf, he1, he2, he3, hpre⟩ := ih (by rw [hrec])
        refine ⟨(l, c) :: pre, c', suf, by simp [he1], by simp [he2], he3, ?_⟩
        intro p hp
        rcases List.mem_cons.1 hp with h1 | h1
        · subst h1; exact hl
        · exact hpre p h1

/-- `addChildren` fails exactly when no child edge carries the key. -/
theorem addChildren_none {x : FP} {d : Nat} :
    ∀ {cs : List (Nat × BKNode)}, addChildren x d cs = none → ∀ p ∈ cs, p.1 ≠ d := by
  intro cs
  induction cs with
  | nil => intro _ p hp; simp at hp
  | cons p rest ih =>
    intro h q hq
    obtain ⟨l, c⟩ := p
    rw [addChildren] at h
    split at h
    · simp at h
    · next hl =>
      rcases hrec : addChildren x d rest with _ | r
      · rcases List.mem_cons.1 hq with h1 | h1
        · subst h1; exact hl
        · exact ih hrec q h1
      · rw [hrec] at h; simp at h

theorem mem_nodesChildren_middle {y : FP} {pre suf : List (Nat × BKNode)} {e : Nat × BKNode} :
    y ∈ nodesChildren (pre ++ e :: suf) ↔
      y ∈ nodesChildren (pre ++ suf) ∨ y ∈ e.2.nodes := by
  obtain ⟨l, c⟩ := e
  simp only [mem_nodesChildren, List.mem_append, List.mem_cons]
  constructor
  · rintro ⟨l', c', hm | hm | hm, hy⟩
    · exact Or.inl ⟨l', c', Or.inl hm, hy⟩
    · cases hm; exact Or.inr hy
    · exact Or.inl ⟨l', c', Or.inr hm, hy⟩
  · rintro (⟨l', c', hm | hm, hy⟩ | hy)
    · exact ⟨l', c', Or.inl hm, hy⟩
    · exact ⟨l', c', Or.inr (Or.inr hm), hy⟩
    · exact ⟨l, c, Or.inr (Or.inl rfl), hy⟩

/-- Membership in the nodes of a tree after insertion: exactly the old
nodes plus the inserted fingerprint.  (When the descent meets a node at
distance 0, `hdist_eq_zero` makes the insertion a genuine no-op: the
fingerprint was bitwise-equal to a stored one.) -/
theorem nodes_addB (x : FP) :
    ∀ (n : BKNode) (y : FP), y ∈ ((BKNode.addB x n).1).nodes ↔ y ∈ n.nodes ∨ y = x := by
  intro n
  induction n using BKNode.ind with
  | _ it cs IH =>
    intro y
    by_cases h0 : hdist x it = 0
    · have hx : x = it := hdist_eq_zero.1 h0
      rw [addB_def, if_pos h0]
      constructor
      · exact Or.inl
      · rintro (h | h)
        · exact h
        · subst h
          rw [hx]
          exact mem_nodes_iff.2 (Or.inl rfl)
    · rcases hrec : addChildren x (hdist x it) cs with _ | r
      · rw [addB_def, if_neg h0, hrec]
        rw [mem_nodes_iff, mem_nodes_iff]
        constructor
        · rintro (h | ⟨l, c, hm, hy⟩)
          · exact Or.inl (Or.inl h)
          · rcases List.mem_append.1 hm with hm1 | hm1
            · exact Or.inl (Or.inr ⟨l, c, hm1, hy⟩)
            · have he : (l, c) = (hdist x it, (⟨x, []⟩ : BKNode)) := List.mem_singleton.1 hm1
              injection he with he1 he2
              subst he2
              rw [nodes_leaf] at hy
              exact Or.inr (List.mem_singleton.1 hy)
        · rintro ((h | ⟨l, c, hm, hy⟩) | h)
          · exact Or.inl h
          · exact Or.inr ⟨l, c, List.mem_append_left _ hm, hy⟩
          · subst h
            refine Or.inr ⟨hdist y it, ⟨y, []⟩, List.mem_append_right _ (by simp), ?_⟩
            rw [nodes_leaf]
            simp
      · obtain ⟨pre, c, suf, he1, he2, _, _⟩ := addChildren_some hrec
        have hmc : (hdist x it, c) ∈ cs := he1 ▸ List.mem_append_right _ (List.mem_cons_self _ _)
        rw [addB_def, if_neg h0, hrec]
        rw [mem_nodes_iff, mem_nodes_iff]
        simp only [he2, he1]
        rw [← mem_nodesChildren, ← mem_nodesChildren, mem_nodesChildren_middle,
          mem_nodesChildren_middle]
        constructor
        · rintro (h | h | h)
          · exact Or.inl (Or.inl h)
          · exact Or.inl (Or.inr (Or.inl h))
          · rcases (IH _ c hmc y).1 h with h2 | h2
            · exact Or.inl (Or.inr (Or.inr h2))
            · exact Or.inr h2
        · rintro ((h | h | h) | h)
          · exact Or.inl h
          · exact Or.inr (Or.inl h)
          · exact Or.inr (Or.inr ((IH _ c hmc y).2 (Or.inl h)))
          · exact Or.inr (Or.inr ((IH _ c hmc y).2 (Or.inr h)))

theorem keysNodupB_iff : ∀ {cs : List (Nat × BKNode)},
    keysNodupB cs = true ↔ (cs.map Prod.fst).Nodup := by
  intro cs
  induction cs with
  | nil => simp [keysNodupB]
  | cons p rest ih =>
    obtain ⟨l, c⟩ := p
    rw [keysNodupB]
    simp only [Bool.and_eq_true, List.all_eq_true, bne_iff_ne, ne_eq, List.map_cons,
      List.nodup_cons, ih, List.mem_map]
    constructor
    · rintro ⟨ha, hnd⟩
      exact ⟨fun ⟨q, hq, he⟩ => ha q hq he, hnd⟩
    · rintro ⟨ha, hnd⟩
      exact ⟨fun q hq he => ha ⟨q, hq, he⟩, hnd⟩

theorem wfChildren_append (it : FP) (l1 l2 : List (Nat × BKNode)) :
    wfChildren it (l1 ++ l2) = (wfChildren it l1 && wfChildren it l2) := by
  induction l1 with
  | nil => rw [List.nil_append, wfChildren, Bool.true_and]
  | cons p rest ih =>
    obtain ⟨l, c⟩ := p
    rw [List.cons_append, wfChildren, wfChildren, ih]
    simp only [Bool.and_assoc]

theorem wfChildren_cons_iff {it : FP} {l : Nat} {c : BKNode} {rest : List (Nat × BKNode)} :
    wfChildren it ((l, c) :: rest) = true ↔
      (l ≠ 0 ∧ (∀ x ∈ c.nodes, hdist x it = l) ∧ c.wfb = true) ∧
        wfChildren it rest = true := by
  rw [wfChildren]
  simp only [Bool.and_eq_true, List.all_eq_true, bne_iff_ne, ne_eq, beq_iff_eq]
  tauto

theorem wfb_mk_iff {it : FP} {cs : List (Nat × BKNode)} :
    (BKNode.mk it cs).wfb = true ↔ keysNodupB cs = true ∧ wfChildren it cs = true := by
  rw [BKNode.wfb, Bool.and_eq_true]

theorem wfb_leaf (x : FP) : (BKNode.mk x []).wfb = true := by
  rw [wfb_mk_iff, keysNodupB, wfChildren]
  exact ⟨rfl, rfl⟩

/-- Insertion preserves the structural invariant. -/
theorem wfb_addB (x : FP) :
    ∀ (n : BKNode), n.wfb = true → ((BKNode.addB x n).1).wfb = true := by
  intro n
  induction n using BKNode.ind with
  | _ it cs IH =>
    intro hwf
    obtain ⟨hnd, hch⟩ := wfb_mk_iff.1 hwf
    by_cases h0 : hdist x it = 0
    · rw [addB_def, if_pos h0]
      exact hwf
    · rcases hrec : addChildren x (hdist x it) cs with _ | r
      · rw [addB_def, if_neg h0, hrec]
        rw [wfb_mk_iff]
        constructor
        · rw [keysNodupB_iff]
          simp only [List.map_append, List.map_cons, List.map_nil]
          rw [List.nodup_append]
          refine ⟨keysNodupB_iff.1 hnd, by simp, ?_⟩
          intro a ha
          simp only [List.mem_singleton]
          intro he
          obtain ⟨p, hp, hpa⟩ := List.mem_map.1 ha
          exact addChildren_none hrec p hp (by rw [hpa, he])
        · rw [wfChildren_append, Bool.and_eq_true]
          refine ⟨hch, ?_⟩
          rw [wfChildren_cons_iff]
          refine ⟨⟨h0, ?_, wfb_leaf x⟩, rfl⟩
          intro z hz
          rw [nodes_leaf] at hz
          rw [List.mem_singleton.1 hz]
      · obtain ⟨pre, c, suf, he1, he2, _, _⟩ := addChildren_some hrec
        have hmc : (hdist x it, c) ∈ cs := he1 ▸ List.mem_append_right _ (List.mem_cons_self _ _)
        obtain ⟨hl0, hdists, hcwf⟩ := wfChildren_mem hch hmc
        rw [addB_def, if_neg h0, hrec]
        rw [wfb_mk_iff]
        constructor
        · rw [keysNodupB_iff, he2]
          have : keysNodupB (pre ++ (hdist x it, c) :: suf) = true := he1 ▸ hnd
          rw [keysNodupB_iff] at this
          simpa using this
        · rw [he2, wfChildren_append, Bool.and_eq_true, wfChildren_cons_iff]
          rw [he1, wfChildren_append, Bool.and_eq_true, wfChildren_cons_iff] at hch
          obtain ⟨hpre, ⟨_, _, _⟩, hsuf⟩ := hch
          refine ⟨hpre, ⟨h0, ?_, IH _ c hmc hcwf⟩, hsuf⟩
          intro z hz
          rcases (nodes_addB x c z).1 hz with h2 | h2
          · exact hdists z h2
          · rw [h2]

/-- Walking the children with a key that belongs to a no-op child is a
no-op (first-match semantics plus key uniqueness). -/
theorem addChildren_self {x : FP} {l : Nat} {c : BKNode} :
    ∀ {cs : List (Nat × BKNode)}, keysNodupB cs = true → (l, c) ∈ cs →
      BKNode.addB x c = (c, false) → addChildren x l cs = some (cs, false) := by
  intro cs
  induction cs with
  | nil => intro _ hm; simp at hm
  | cons p rest ih =>
    intro hnd hm hnoop
    obtain ⟨l', c'⟩ := p
    obtain ⟨hne, hrest⟩ := keysNodupB_cons.1 hnd
    rcases List.mem_cons.1 hm with h1 | h1
    · injection h1 with ha hb
      subst ha
      subst hb
      rw [addChildren, if_pos rfl, hnoop]
    · have hll : l' ≠ l := fun he => hne (l, c) h1 (by rw [he])
      rw [addChildren, if_neg hll, ih hrest h1 hnoop]

/-- Inserting a fingerprint already stored in a well-formed tree is a
complete no-op: same structure, `size` untouched. -/
theorem addB_noop (x : FP) :
    ∀ (n : BKNode), n.wfb = true → x ∈ n.nodes → BKNode.addB x n = (n, false) := by
  intro n
  induction n using BKNode.ind with
  | _ it cs IH =>
    intro hwf hx
    obtain ⟨hnd, hch⟩ := wfb_mk_iff.1 hwf
    rcases mem_nodes_iff.1 hx with h | ⟨l, c, hm, hxc⟩
    · rw [addB_def, if_pos (by rw [h, hdist_self])]
    · obtain ⟨hl0, hdists, hcwf⟩ := wfChildren_mem hch hm
      have hxl : hdist x it = l := hdists x hxc
      have hnoop : BKNode.addB x c = (c, false) := IH l c hm hcwf hxc
      rw [addB_def, if_neg (by rw [hxl]; exact hl0), hxl,
        addChildren_self hnd hm hnoop]

/-! ## The `BKTree` class: root pointer plus running node count. -/

structure BKTree where
  root : Option BKNode
  size : Nat

/-- `BKTree.__init__`. -/
def emptyTree : BKTree := ⟨none, 0⟩

/-- `BKTree.add`: first item becomes the root with `size = 1`; otherwise
descend, incrementing `size` exactly when a new child node is created. -/
def BKTree.add (x : FP) (T : BKTree) : BKTree :=
  match T.root with
  | none => ⟨some ⟨x, []⟩, 1⟩
  | some r =>
    let p := BKNode.addB x r
    ⟨some p.1, if p.2 then T.size + 1 else T.size⟩

/-- `BKTree.search`: empty tree gives `[]`, otherwise run the stack loop
from `[root]` with empty results. -/
def treeSearch (T : BKTree) (q : FP) (t : Nat) : List (FP × Nat) :=
  match T.root with
  | none => []
  | some r => searchLoop q t [r] []

def treeNodes (T : BKTree) : List FP :=
  match T.root with
  | none => []
  | some r => r.nodes

def treeWF (T : BKTree) : Bool :=
  match T.root with
  | none => true
  | some r => r.wfb

/-- A tree built by a sequence of `add` calls starting from a fresh
`BKTree` — the only way trees arise in the program. -/
def buildTree (fps : List FP) : BKTree := fps.foldl (fun T x => T.add x) emptyTree

theorem treeSearch_eq (T : BKTree) (q : FP) (t : Nat) :
    treeSearch T q t = match T.root with
      | none => []
      | some r => searchRec q t r := by
  rcases T with ⟨_ | r, sz⟩
  · rfl
  · show searchLoop q t [r] [] = searchRec q t r
    rw [searchLoop_eq]
    simp

theorem treeWF_empty : treeWF emptyTree = true := rfl

theorem treeWF_add (x : FP) (T : BKTree) (h : treeWF T = true) :
    treeWF (T.add x) = true := by
  rcases T with ⟨_ | r, sz⟩
  · exact wfb_leaf x
  · exact wfb_addB x r h

theorem mem_treeNodes_add (x : FP) (T : BKTree) (y : FP) :
    y ∈ treeNodes (T.add x) ↔ y ∈ treeNodes T ∨ y = x := by
  rcases T with ⟨_ | r, sz⟩
  · show y ∈ (BKNode.mk x []).nodes ↔ y ∈ ([] : List FP) ∨ y = x
    rw [nodes_leaf]
    simp
  · exact nodes_addB x r y

/-- The central search characterization: on a well-formed tree, `search`
returns exactly the stored fingerprints within the threshold, each with
its true distance to the query. -/
theorem mem_treeSearch {T : BKTree} (h : treeWF T = true) (q : FP) (t : Nat)
    (y : FP) (dd : Nat) :
    (y, dd) ∈ treeSearch T q t ↔ y ∈ treeNodes T ∧ dd = hdist q y ∧ dd ≤ t := by
  rw [treeSearch_eq]
  rcases T with ⟨_ | r, sz⟩
  · simp [treeNodes]
  · show (y, dd) ∈ searchRec q t r ↔ y ∈ treeNodes ⟨some r, sz⟩ ∧ dd = hdist q y ∧ dd ≤ t
    constructor
    · exact fun hm => searchRec_sound q t r y dd hm
    · rintro ⟨hy, rfl, hdd⟩
      exact searchRec_complete q t r h y hy hdd

/-- Inserting a stored fingerprint into a well-formed tree changes
nothing: not the structure and not the `size` counter. -/
theorem tree_add_noop {T : BKTree} (h : treeWF T = true) {x : FP}
    (hx : x ∈ treeNodes T) : T.add x = T := by
  rcases T with ⟨_ | r, sz⟩
  · simp [treeNodes] at hx
  · show (⟨some (BKNode.addB x r).1, if (BKNode.addB x r).2 then sz + 1 else sz⟩ : BKTree)
      = ⟨some r, sz⟩
    rw [addB_noop x r h hx]
    rfl

theorem treeWF_foldl (fps : List FP) (T : BKTree) (h : treeWF T = true) :
    treeWF (fps.foldl (fun T x => T.add x) T) = true := by
  induction fps generalizing T with
  | nil => exact h
  | cons f rest ih => exact ih _ (treeWF_add f T h)

theorem treeWF_build (fps : List FP) : treeWF (buildTree fps) = true :=
  treeWF_foldl fps emptyTree treeWF_empty

theorem mem_treeNodes_foldl (fps : List FP) (T : BKTree) (y : FP) :
    y ∈ treeNodes (fps.foldl (fun T x => T.add x) T) ↔ y ∈ treeNodes T ∨ y ∈ fps := by
  induction fps generalizing T with
  | nil => simp
  | cons f rest ih =>
    rw [List.foldl_cons, ih, mem_treeNodes_add]
    simp only [List.mem_cons]
    tauto

theorem mem_treeNodes_build (fps : List FP) (y : FP) :
    y ∈ treeNodes (buildTree fps) ↔ y ∈ fps := by
  rw [buildTree, mem_treeNodes_foldl]
  simp [treeNodes, emptyTree]

theorem buildTree_snoc (fps : List FP) (x : FP) :
    buildTree (fps ++ [x]) = (buildTree fps).add x := by
  rw [buildTree, List.foldl_append]
  rfl

/-! ## The `ImageHashIndex` state

`hash_to_files` is a `defaultdict(list)` and `file_mtimes` a plain dict;
both preserve insertion order, so they are modelled as association lists
(update-in-place keeps a key's position, fresh keys are appended). -/

structure IndexState where
  bktree : BKTree
  hashToFiles : List (FP × List FPath)
  fileMtimes : List (FPath × Mtime)

/-- `ImageHashIndex.__init__`. -/
def emptyState : IndexState := ⟨emptyTree, [], []⟩

def alookup {κ ν : Type} [DecidableEq κ] (k : κ) : List (κ × ν) → Option ν
  | [] => none
  | (k', v) :: rest => if k' = k then some v else alookup k rest

/-- Dict assignment `m[k] = v`: overwrite in place, else append. -/
def aset {κ ν : Type} [DecidableEq κ] (k : κ) (v : ν) : List (κ × ν) → List (κ × ν)
  | [] => [(k, v)]
  | (k', v') :: rest => if k' = k then (k', v) :: rest else (k', v') :: aset k v rest

/-- Dict deletion `del m[k]`. -/
def aerase {κ ν : Type} [DecidableEq κ] (k : κ) : List (κ × ν) → List (κ × ν)
  | [] => []
  | (k', v) :: rest => if k' = k then rest else (k', v) :: aerase k rest

/-- Reading a `defaultdict(list)` bucket: missing keys read as `[]`. -/
def filesOf (s : IndexState) (h : FP) : List FPath := (alookup h s.hashToFiles).getD []

def registryKeys (s : IndexState) : List FP := s.hashToFiles.map Prod.fst

/-- The stale-association sweep in `add_image` / `add_directory`:
for every bucket containing the path, `list.remove` the path (first
occurrence) and delete the bucket key if the bucket became empty. -/
def removeFile (p : FPath) : List (FP × List FPath) → List (FP × List FPath)
  | [] => []
  | (h, fs) :: rest =>
    if p ∈ fs then
      let fs' := fs.erase p
      if fs' = [] then removeFile p rest
      else (h, fs') :: removeFile p rest
    else (h, fs) :: removeFile p rest

/-- `_find_existing_hash`: first registry key equal to the given hash, or
the hash itself.  (With value equality this always returns a value equal
to its argument; the code needs it because distinct `ImageHash` objects
hash differently as dict keys.) -/
def findExistingHash (fp : FP) : List (FP × List FPath) → FP
  | [] => fp
  | (h, _) :: rest => if h = fp then h else findExistingHash fp rest

/-- The tail of `add_image`:
`if filepath not in self.hash_to_files[hash_key]: append` — the
`defaultdict` access materialises an empty bucket for a fresh key,
then the path is appended. -/
def upsertBucket (key : FP) (p : FPath) (r : List (FP × List FPath)) : List (FP × List FPath) :=
  match alookup key r with
  | some fs => if p ∈ fs then r else aset key (fs ++ [p]) r
  | none => r ++ [(key, [p])]

/-- `ImageHashIndex.add_image`, success path.  The hash of the image is the
argument `fp` (hashing is external; the hex serialise/deserialise round
trip the code performs to normalise the hash object is the identity on the
bit array).  Returns the new state and the `True`/`False` result. -/
def addImage (s : IndexState) (filepath : FPath) (mtime : Mtime) (fp : FP) :
    IndexState × Bool :=
  if alookup filepath s.fileMtimes = some mtime then (s, false)
  else
    let registry1 :=
      if (alookup filepath s.fileMtimes).isSome then removeFile filepath s.hashToFiles
      else s.hashToFiles
    let tree1 := s.bktree.add fp
    let key := findExistingHash fp registry1
    let registry2 := upsertBucket key filepath registry1
    (⟨tree1, registry2, aset filepath mtime s.fileMtimes⟩, true)

/-- `ImageHashIndex._remove_deleted_files`, with path existence as an
abstract probe.  The Python loop interleaves, per deleted file, the
`file_mtimes` deletion and the bucket sweep; the two structures are
independent, so the two folds below compute the same final state.
If anything was deleted the BK-tree is rebuilt from the surviving
registry keys in order. -/
def removeDeletedFiles (probe : FPath → Bool) (s : IndexState) : IndexState × Nat :=
  let deleted := (s.fileMtimes.map Prod.fst).filter (fun p => !probe p)
  let mtimes1 := deleted.foldl (fun m p => aerase p m) s.fileMtimes
  let registry1 := deleted.foldl (fun r p => removeFile p r) s.hashToFiles
  let tree1 := if deleted.length > 0 then
      (registry1.map Prod.fst).foldl (fun T h => T.add h) emptyTree
    else s.bktree
  (⟨tree1, registry1, mtimes1⟩, deleted.length)

/-- Stable insertion by ascending distance: the new pair goes after every
pair of smaller-or-equal distance.  Python's `sorted` (timsort) is a
stable sort, and the stable sort of a list by a key is unique, so this
insertion sort computes exactly `sorted(results, key=lambda x: x[1])`. -/
def insertSorted (p : FPath × Nat) : List (FPath × Nat) → List (FPath × Nat)
  | [] => [p]
  | q :: rest => if q.2 ≤ p.2 then q :: insertSorted p rest else p :: q :: rest

def sortByDistance (l : List (FPath × Nat)) : List (FPath × Nat) :=
  l.foldl (fun acc p => insertSorted p acc) []

/-- The flattening loop of `find_duplicates`: for each matched hash in
search-result order, every file in its bucket whose basename differs from
the query basename, paired with the match distance. -/
def dupResults (basename : FPath → FPath) (s : IndexState) (qfp : FP) (qpath : FPath)
    (t : Nat) : List (FPath × Nat) :=
  (treeSearch s.bktree qfp t).flatMap (fun hd =>
    (((alookup hd.1 s.hashToFiles).getD []).filter
        (fun f => basename f != basename qpath)).map (fun f => (f, hd.2)))

/-- `ImageHashIndex.find_duplicates`, success path: the query image's hash
is `qfp` and its path `qpath`; `basename` abstracts `os.path.basename`. -/
def findDuplicates (basename : FPath → FPath) (s : IndexState) (qfp : FP) (qpath : FPath)
    (t : Nat) : List (FPath × Nat) :=
  sortByDistance (dupResults basename s qfp qpath t)

/-! ### `find_all_duplicate_groups`

The loop body reads `self.hash_to_files[h]` for every matched hash, and
`hash_to_files` is a `defaultdict(list)`: reading a missing key INSERTS
that key with an empty bucket.  Since the outer `for` iterates the live
`hash_to_files.keys()` view, such an insertion changes the dict's size
mid-iteration and CPython's dict iterator raises
`RuntimeError: dictionary changed size during iteration` on its next
advance (including the final, exhausting one).  A missing key can be
matched whenever the tree holds an orphan fingerprint — reachable by
re-indexing a changed file.  The model therefore threads the registry
through the loop and returns `Except Unit …`, with `error` standing for
the uncaught `RuntimeError`. -/

/-- `defaultdict(list).__getitem__`: the bucket of `h`, materialising a
missing key as a fresh empty bucket appended to the dict. -/
def bucketRead (r : List (FP × List FPath)) (h : FP) :
    List FPath × List (FP × List FPath) :=
  match alookup h r with
  | some fs => (fs, r)
  | none => ([], r ++ [(h, [])])

/-- `total_files = sum(len(self.hash_to_files[h]) for h, _ in
similar_hashes)`, with the `defaultdict` materialisation of each access
threaded left to right. -/
def totalFilesRead : List (FP × List FPath) → List (FP × Nat) →
    Nat × List (FP × List FPath)
  | r, [] => (0, r)
  | r, hd :: rest =>
    let fr := bucketRead r hd.1
    let nr := totalFilesRead fr.2 rest
    (fr.1.length + nr.1, nr.2)

/-- The group-building loop: mark each matched hash visited and append
`(filepath, hash, distance)` for every file of its (materialising)
bucket read. -/
def buildGroup : List (FP × List FPath) → List FP → List (FP × Nat) →
    List (FPath × FP × Nat) × List (FP × List FPath) × List FP
  | r, processed, [] => ([], r, processed)
  | r, processed, hd :: rest =>
    let fr := bucketRead r hd.1
    let res := buildGroup fr.2 (processed ++ [hd.1]) rest
    (fr.1.map (fun f => (f, hd.1, hd.2)) ++ res.1, res.2.1, res.2.2)

/-- The key loop of `find_all_duplicate_groups`, faithful to the
`defaultdict` mutation: `n0` is the dict size recorded when the
`keys()` iterator was created; every advance of the iterator — one per
key, plus the final exhausting one — first checks the current size
against `n0` and raises (`error`) on a mismatch.  Keys appended by
materialisation are never reached: the guard fires first.  The visited
set `processed` is membership-only, so a list models the Python set. -/
def groupsLoopE (tree : BKTree) (t : Nat) (n0 : Nat) :
    List FP → List (FP × List FPath) → List FP →
    Except Unit (List (List (FPath × FP × Nat)) × List (FP × List FPath) × List FP)
  | [], r, processed =>
    if r.length = n0 then .ok ([], r, processed) else .error ()
  | h :: rest, r, processed =>
    if r.length ≠ n0 then .error ()
    else if h ∈ processed then groupsLoopE tree t n0 rest r processed
    else
      let sim := treeSearch tree h t
      let tfr := totalFilesRead r sim
      if sim.length > 1 ∨ tfr.1 > 1 then
        let gr := buildGroup tfr.2 processed sim
        match groupsLoopE tree t n0 rest gr.2.1 gr.2.2 with
        | .error e => .error e
        | .ok res => .ok (gr.1 :: res.1, res.2)
      else groupsLoopE tree t n0 rest tfr.2 processed

/-- `ImageHashIndex.find_all_duplicate_groups`: run the loop over the
registry keys from an empty visited set; `error` is the uncaught
`RuntimeError` of a mid-iteration dict mutation. -/
def findAllDuplicateGroupsE (s : IndexState) (t : Nat) :
    Except Unit (List (List (FPath × FP × Nat))) :=
  (groupsLoopE s.bktree t s.hashToFiles.length (s.hashToFiles.map Prod.fst)
    s.hashToFiles []).map (fun res => res.1)

/-- Pure read of one search result's triples, used to STATE what an
emitted group contains (coincides with `buildGroup`'s group component:
materialised buckets are empty either way). -/
def groupTriples (registry : List (FP × List FPath)) (sim : List (FP × Nat)) :
    List (FPath × FP × Nat) :=
  sim.flatMap (fun hd => ((alookup hd.1 registry).getD []).map (fun f => (f, hd.1, hd.2)))

/-- Pure read of `total_files` (coincides with `totalFilesRead`'s count:
a materialised bucket contributes length 0). -/
def totalFilesOf (registry : List (FP × List FPath)) (sim : List (FP × Nat)) : Nat :=
  (sim.map (fun hd => ((alookup hd.1 registry).getD []).length)).sum

/-- Mutation-free reference loop: what `groupsLoopE` computes on runs in
which no bucket read ever materialises a key (proved in
`groupsLoopE_eq_pure`).  Used to characterise the fault-free executions. -/
def groupsLoop (s : IndexState) (t : Nat) :
    List FP → List FP → List (List (FPath × FP × Nat)) × List FP
  | [], processed => ([], processed)
  | h :: rest, processed =>
    if h ∈ processed then groupsLoop s t rest processed
    else
      let sim := treeSearch s.bktree h t
      if sim.length > 1 ∨ totalFilesOf s.hashToFiles sim > 1 then
        let res := groupsLoop s t rest (processed ++ sim.map Prod.fst)
        (groupTriples s.hashToFiles sim :: res.1, res.2)
      else groupsLoop s t rest processed

/-! ## Persistence

`save_index` writes `{hex(hash): files}` plus `file_mtimes` into a pickle
inside a zip.  A fingerprint's byte serialisation (`hash.tobytes()`: one
byte per boolean) is modelled as its list of byte values; the hex string
is a bijective image of that byte list, so the byte list stands for the
dict key.  `load_index` reconstructs each hash with
`np.frombuffer(...).reshape((8, 8))`, which raises `ValueError` exactly
when the byte count is not 64. -/

def toBytes (fp : FP) : List Nat := fp.1.map (fun b => if b then 1 else 0)

def fromBytes (bs : List Nat) : Option FP :=
  if h : bs.length = FPw then
    some ⟨bs.map (fun b => b != 0), by simpa using h⟩
  else none

/-- The unpickled payload: the two dict entries `load_index` reads.  A
missing entry models a payload whose dict lacks that key (`KeyError`). -/
structure SavedData where
  fileMtimes : Option (List (FPath × Mtime))
  hashToFiles : Option (List (List Nat × List FPath))

/-- The on-disk index file as `load_index` can encounter it. -/
inductive IndexFile where
  | absent
  | badContainer
  | ioError
  | payload (d : SavedData)

/-- `ImageHashIndex.save_index`, success path. -/
def saveIndex (s : IndexState) : IndexFile :=
  IndexFile.payload ⟨some s.fileMtimes, some (s.hashToFiles.map (fun e => (toBytes e.1, e.2)))⟩

/-- The hash-reconstruction loop of `load_index`.  On a reshape failure
the `except ValueError` handler clears `file_mtimes` and `hash_to_files`
(the partially rebuilt tree is left as is), deletes the index file and
returns `False`. -/
def loadLoop : List (List Nat × List FPath) → IndexState → IndexState × Bool × Bool
  | [], s => (s, true, false)
  | (bs, files) :: rest, s =>
    match fromBytes bs with
    | none => ({ s with fileMtimes := [], hashToFiles := [] }, false, true)
    | some h =>
      loadLoop rest
        { s with
          hashToFiles := aset h files s.hashToFiles
          bktree := s.bktree.add h }

/-- `ImageHashIndex.load_index`.  Result: `(new state, return value,
whether the index file was deleted)`.
* `absent`: no index file — early `return False`.
* `badContainer`: `zipfile.BadZipFile` / `pickle.UnpicklingError` /
  `EOFError` while reading: nothing restored yet; handler deletes the file.
* `ioError`: any other unexpected error (e.g. permission denied): caught
  by the generic handler, file left untouched.
* `payload`: `data['file_mtimes']` is read and assigned first; a payload
  lacking `hash_to_files` then raises `KeyError` after the mtimes were
  already installed (handled as corruption: file deleted, state kept);
  otherwise `hash_to_files` is reset and rebuilt by `loadLoop`. -/
def loadIndex (f : IndexFile) (s : IndexState) : IndexState × Bool × Bool :=
  match f with
  | .absent => (s, false, false)
  | .badContainer => (s, false, true)
  | .ioError => (s, false, false)
  | .payload d =>
    match d.fileMtimes with
    | none => (s, false, true)
    | some mt =>
      let s1 := { s with fileMtimes := mt }
      match d.hashToFiles with
      | none => (s1, false, true)
      | some entries => loadLoop entries { s1 with hashToFiles := [] }

/-- A state reachable by a sequence of `add_image` calls on a fresh index:
each operation carries the observed `(path, mtime)` and the externally
computed fingerprint. -/
def applyAdds (ops : List (FPath × Mtime × FP)) (s : IndexState) : IndexState :=
  ops.foldl (fun s op => (addImage s op.1 op.2.1 op.2.2).1) s

/-! ## Association-list lemmas (Python dict semantics) -/

theorem alookup_mem {κ ν : Type} [DecidableEq κ] {k : κ} {r : List (κ × ν)} {v : ν}
    (h : alookup k r = some v) : (k, v) ∈ r := by
  induction r with
  | nil => simp [alookup] at h
  | cons e rest ih =>
    obtain ⟨k', v'⟩ := e
    rw [alookup] at h
    split at h
    · next he => cases h; exact he ▸ List.mem_cons_self _ _
    · exact List.mem_cons_of_mem _ (ih h)

theorem alookup_eq_none {κ ν : Type} [DecidableEq κ] {k : κ} {r : List (κ × ν)} :
    alookup k r = none ↔ k ∉ r.map Prod.fst := by
  induction r with
  | nil => simp [alookup]
  | cons e rest ih =>
    obtain ⟨k', v'⟩ := e
    rw [alookup]
    by_cases he : k' = k
    · simp [he]
    · simp [he, ih, Ne.symm he]

theorem alookup_isSome {κ ν : Type} [DecidableEq κ] {k : κ} {r : List (κ × ν)} :
    (alookup k r).isSome = true ↔ k ∈ r.map Prod.fst := by
  rcases h : alookup k r with _ | v
  · simpa [h] using alookup_eq_none.1 h
  · simp only [Option.isSome_some, true_iff]
    exact List.mem_map.2 ⟨(k, v), alookup_mem h, rfl⟩

theorem alookup_aset_self {κ ν : Type} [DecidableEq κ] (k : κ) (v : ν) (r : List (κ × ν)) :
    alookup k (aset k v r) = some v := by
  induction r with
  | nil => simp [aset, alookup]
  | cons e rest ih =>
    obtain ⟨k', v'⟩ := e
    rw [aset]
    by_cases he : k' = k
    · rw [if_pos he, alookup, if_pos he]
    · rw [if_neg he, alookup, if_neg he]
      exact ih

theorem alookup_aset_ne {κ ν : Type} [DecidableEq κ] {k k' : κ} (hne : k' ≠ k)
    (v : ν) (r : List (κ × ν)) : alookup k' (aset k v r) = alookup k' r := by
  induction r with
  | nil =>
    simp only [aset, alookup]
    rw [if_neg (fun h => hne h.symm)]
  | cons e rest ih =>
    obtain ⟨k'', v''⟩ := e
    rw [aset]
    by_cases he : k'' = k
    · subst he
      simp only [alookup]
      rw [if_neg (fun h => hne h.symm), if_neg (fun h => hne h.symm)]
    · rw [if_neg he, alookup, alookup]
      split
      · rfl
      · exact ih

theorem aset_keys_of_mem {κ ν : Type} [DecidableEq κ] {k : κ} (v : ν)
    {r : List (κ × ν)} (h : k ∈ r.map Prod.fst) :
    (aset k v r).map Prod.fst = r.map Prod.fst := by
  induction r with
  | nil => simp at h
  | cons e rest ih =>
    obtain ⟨k', v'⟩ := e
    rw [aset]
    by_cases he : k' = k
    · rw [if_pos he]
      simp
    · rw [if_neg he]
      simp only [List.map_cons, List.mem_cons] at h
      rcases h with h | h
      · exact absurd h.symm he
      · simp only [List.map_cons, ih h]

theorem aset_of_not_mem {κ ν : Type} [DecidableEq κ] {k : κ} (v : ν)
    {r : List (κ × ν)} (h : k ∉ r.map Prod.fst) :
    aset k v r = r ++ [(k, v)] := by
  induction r with
  | nil => simp [aset]
  | cons e rest ih =>
    obtain ⟨k', v'⟩ := e
    simp only [List.map_cons, List.mem_cons] at h
    push_neg at h
    rw [aset, if_neg (fun he => h.1 he.symm), ih h.2]
    simp

theorem alookup_append_some {κ ν : Type} [DecidableEq κ] {k : κ} {r1 r2 : List (κ × ν)}
    {v : ν} (h : alookup k r1 = some v) : alookup k (r1 ++ r2) = some v := by
  induction r1 with
  | nil => simp [alookup] at h
  | cons e rest ih =>
    obtain ⟨k', v'⟩ := e
    rw [alookup] at h
    rw [List.cons_append, alookup]
    split at h
    · next he => rw [if_pos he]; exact h
    · next he => rw [if_neg he]; exact ih h

theorem alookup_append_none {κ ν : Type} [DecidableEq κ] {k : κ} {r1 r2 : List (κ × ν)}
    (h : alookup k r1 = none) : alookup k (r1 ++ r2) = alookup k r2 := by
  induction r1 with
  | nil => simp
  | cons e rest ih =>
    obtain ⟨k', v'⟩ := e
    rw [alookup] at h
    rw [List.cons_append, alookup]
    split at h
    · simp at h
    · next he => rw [if_neg he]; exact ih h

/-- Defining equation of `removeFile` on a cons cell, let-free. -/
theorem removeFile_cons (p : FPath) (hh : FP) (fs : List FPath)
    (rest : List (FP × List FPath)) :
    removeFile p ((hh, fs) :: rest) =
      if p ∈ fs then
        (if fs.erase p = [] then removeFile p rest
         else (hh, fs.erase p) :: removeFile p rest)
      else (hh, fs) :: removeFile p rest := by
  simp only [removeFile]

/-- Every entry surviving `removeFile` comes from an entry of the input,
with the path gone (removed, or never present). -/
theorem mem_removeFile {p : FPath} {r : List (FP × List FPath)} {e : FP × List FPath}
    (h : e ∈ removeFile p r) :
    ∃ fs, (e.1, fs) ∈ r ∧
      ((e.2 = fs ∧ p ∉ fs) ∨ (e.2 = fs.erase p ∧ p ∈ fs)) := by
  induction r with
  | nil => simp [removeFile] at h
  | cons q rest ih =>
    obtain ⟨hh, fs⟩ := q
    rw [removeFile_cons] at h
    split at h
    · next hp =>
      split at h
      · obtain ⟨fs', hm, hc⟩ := ih h
        exact ⟨fs', List.mem_cons_of_mem _ hm, hc⟩
      · rcases List.mem_cons.1 h with h1 | h1
        · subst h1
          exact ⟨fs, List.mem_cons_self _ _, Or.inr ⟨rfl, hp⟩⟩
        · obtain ⟨fs', hm, hc⟩ := ih h1
          exact ⟨fs', List.mem_cons_of_mem _ hm, hc⟩
    · next hp =>
      rcases List.mem_cons.1 h with h1 | h1
      · subst h1
        exact ⟨fs, List.mem_cons_self _ _, Or.inl ⟨rfl, hp⟩⟩
      · obtain ⟨fs', hm, hc⟩ := ih h1
        exact ⟨fs', List.mem_cons_of_mem _ hm, hc⟩

theorem removeFile_keys_sublist (p : FPath) (r : List (FP × List FPath)) :
    ((removeFile p r).map Prod.fst).Sublist (r.map Prod.fst) := by
  induction r with
  | nil => simp [removeFile]
  | cons q rest ih =>
    obtain ⟨hh, fs⟩ := q
    rw [removeFile_cons]
    split
    · split
      · exact ih.trans (List.sublist_cons_self _ _)
      · simpa using ih
    · simpa using ih

/-- After the sweep, no surviving bucket contains the path (buckets hold
each path at most once in reachable states). -/
theorem removeFile_clears {p : FPath} {r : List (FP × List FPath)}
    (hcount : ∀ e ∈ r, e.2.count p ≤ 1) {h : FP} {fs' : List FPath}
    (hl : alookup h (removeFile p r) = some fs') : p ∉ fs' := by
  obtain ⟨fs, hm, hc⟩ := mem_removeFile (alookup_mem hl)
  rcases hc with ⟨he, hp⟩ | ⟨he, hp⟩
  · have he2 : fs' = fs := he
    exact he2 ▸ hp
  · have he2 : fs' = fs.erase p := he
    have hb := hcount (h, fs) hm
    subst he2
    intro hmem
    have h1 : 0 < fs.count p := List.count_pos_iff.2 hp
    have h2 := List.count_erase_self p fs
    have h3 : 0 < (fs.erase p).count p := List.count_pos_iff.2 hmem
    simp only at hb h2
    omega

/-- If the key's unique bucket was exactly `[p]`, the sweep drops the key
entirely. -/
theorem removeFile_drops_key {p : FPath} {r : List (FP × List FPath)}
    (hk : (r.map Prod.fst).Nodup) {h : FP}
    (hl : alookup h r = some [p]) : h ∉ (removeFile p r).map Prod.fst := by
  induction r with
  | nil => simp [alookup] at hl
  | cons q rest ih =>
    obtain ⟨hh, fs⟩ := q
    simp only [List.map_cons, List.nodup_cons] at hk
    obtain ⟨hnin, hnd⟩ := hk
    rw [alookup] at hl
    rw [removeFile_cons]
    split at hl
    · next he =>
      cases hl
      subst he
      rw [if_pos (List.mem_singleton.2 rfl)]
      simp only [List.erase_cons_head, if_pos rfl]
      intro hmem
      obtain ⟨e, hme, hfe⟩ := List.mem_map.1 hmem
      obtain ⟨fs', hm', _⟩ := mem_removeFile hme
      exact hnin (List.mem_map.2 ⟨(e.1, fs'), hm', hfe⟩)
    · next he =>
      have hne : h ≠ hh := fun hx => he hx.symm
      have htail : h ∉ (removeFile p rest).map Prod.fst := ih hnd hl
      split
      · split
        · exact htail
        · simp only [List.map_cons, List.mem_cons]
          rintro (hx | hx)
          · exact hne hx
          · exact htail hx
      · simp only [List.map_cons, List.mem_cons]
        rintro (hx | hx)
        · exact hne hx
        · exact htail hx

/-- With value equality, `_find_existing_hash` always returns (a value
equal to) its argument. -/
theorem findExistingHash_eq (fp : FP) : ∀ r : List (FP × List FPath),
    findExistingHash fp r = fp
  | [] => rfl
  | (h, _) :: rest => by
    rw [findExistingHash]
    split
    · next he => exact he
    · exact findExistingHash_eq fp rest

theorem mem_aset {κ ν : Type} [DecidableEq κ] {e : κ × ν} {k : κ} {v : ν} :
    ∀ {r : List (κ × ν)}, e ∈ aset k v r → e ∈ r ∨ (e.1 = k ∧ e.2 = v) := by
  intro r
  induction r with
  | nil =>
    intro h
    simp only [aset, List.mem_singleton] at h
    subst h
    exact Or.inr ⟨rfl, rfl⟩
  | cons q rest ih =>
    intro h
    obtain ⟨k', v'⟩ := q
    rw [aset] at h
    split at h
    · next he =>
      rcases List.mem_cons.1 h with h1 | h1
      · subst h1
        exact Or.inr ⟨he, rfl⟩
      · exact Or.inl (List.mem_cons_of_mem _ h1)
    · rcases List.mem_cons.1 h with h1 | h1
      · exact Or.inl (h1 ▸ List.mem_cons_self _ _)
      · rcases ih h1 with h2 | h2
        · exact Or.inl (List.mem_cons_of_mem _ h2)
        · exact Or.inr h2

theorem upsert_self_mem (key : FP) (p : FPath) (r : List (FP × List FPath)) :
    p ∈ (alookup key (upsertBucket key p r)).getD [] := by
  rw [upsertBucket]
  rcases hl : alookup key r with _ | fs
  · rw [alookup_append_none hl]
    simp [alookup]
  · by_cases hp : p ∈ fs
    · simp only [if_pos hp, hl, Option.getD_some]
      exact hp
    · simp only [if_neg hp, alookup_aset_self, Option.getD_some]
      simp

theorem alookup_upsert_ne {h key : FP} (hne : h ≠ key) (p : FPath)
    (r : List (FP × List FPath)) :
    alookup h (upsertBucket key p r) = alookup h r := by
  rw [upsertBucket]
  rcases hl : alookup key r with _ | fs
  · rcases hl2 : alookup h r with _ | fs2
    · rw [alookup_append_none hl2]
      simp [alookup, Ne.symm hne]
    · rw [alookup_append_some hl2]
  · by_cases hp : p ∈ fs
    · simp only [if_pos hp]
    · simp only [if_neg hp, alookup_aset_ne hne]

theorem upsert_keys_mem (key : FP) (p : FPath) (r : List (FP × List FPath)) (y : FP) :
    y ∈ (upsertBucket key p r).map Prod.fst ↔ y ∈ r.map Prod.fst ∨ y = key := by
  rw [upsertBucket]
  rcases hl : alookup key r with _ | fs
  · simp [List.mem_append]
  · have hkm : key ∈ r.map Prod.fst :=
      List.mem_map.2 ⟨(key, fs), alookup_mem hl, rfl⟩
    by_cases hp : p ∈ fs
    · simp only [if_pos hp]
      exact ⟨Or.inl, fun h => h.elim id (fun he => he ▸ hkm)⟩
    · simp only [if_neg hp, aset_keys_of_mem _ hkm]
      exact ⟨Or.inl, fun h => h.elim id (fun he => he ▸ hkm)⟩

theorem upsert_keys_nodup (key : FP) (p : FPath) {r : List (FP × List FPath)}
    (h : (r.map Prod.fst).Nodup) : ((upsertBucket key p r).map Prod.fst).Nodup := by
  rw [upsertBucket]
  rcases hl : alookup key r with _ | fs
  · have : key ∉ r.map Prod.fst := alookup_eq_none.1 hl
    simp [List.nodup_append, h, this]
  · have hkm : key ∈ r.map Prod.fst :=
      List.mem_map.2 ⟨(key, fs), alookup_mem hl, rfl⟩
    by_cases hp : p ∈ fs
    · simp only [if_pos hp]
      exact h
    · simp only [if_neg hp, aset_keys_of_mem _ hkm]
      exact h

theorem upsert_count (key : FP) (p : FPath) {r : List (FP × List FPath)}
    (hc : ∀ e ∈ r, e.2.count p ≤ 1) :
    ∀ e ∈ upsertBucket key p r, e.2.count p ≤ 1 := by
  intro e he
  rw [upsertBucket] at he
  rcases hl : alookup key r with _ | fs
  all_goals simp only [hl] at he
  · rcases List.mem_append.1 he with h1 | h1
    · exact hc e h1
    · simp only [List.mem_singleton] at h1
      subst h1
      simp
  · by_cases hp : p ∈ fs
    · simp only [if_pos hp] at he
      exact hc e he
    · simp only [if_neg hp] at he
      rcases mem_aset he with h1 | ⟨h1, h2⟩
      · exact hc e h1
      · rw [h2, List.count_append]
        have : fs.count p = 0 := by
          rcases Nat.eq_zero_or_pos (fs.count p) with hz | hpos
          · exact hz
          · exact absurd (List.count_pos_iff.1 hpos) hp
        simp [this, List.count_singleton]

theorem removeFile_count (p : FPath) {r : List (FP × List FPath)}
    (hc : ∀ e ∈ r, e.2.count p ≤ 1) :
    ∀ e ∈ removeFile p r, e.2.count p ≤ 1 := by
  intro e he
  obtain ⟨fs, hm, hcase⟩ := mem_removeFile he
  rcases hcase with ⟨h1, _⟩ | ⟨h1, _⟩
  · rw [h1]
    exact hc (e.1, fs) hm
  · rw [h1]
    have h2 := List.count_erase_self p fs
    have := hc (e.1, fs) hm
    simp only at this ⊢
    omega

theorem mem_keys_of_filesOf {s : IndexState} {h : FP} {f : FPath}
    (hf : f ∈ filesOf s h) : h ∈ registryKeys s := by
  rw [filesOf] at hf
  rcases hl : alookup h s.hashToFiles with _ | fs
  · rw [hl] at hf; simp at hf
  · exact List.mem_map.2 ⟨(h, fs), alookup_mem hl, rfl⟩

/-! ## `add_image` invariant preservation -/

theorem addImage_keys_mem (s : IndexState) (p : FPath) (mt : Mtime) (fp : FP) (y : FP) :
    y ∈ registryKeys (addImage s p mt fp).1 → y ∈ registryKeys s ∨ y = fp := by
  rw [addImage]
  split
  · exact Or.inl
  · intro h
    rw [registryKeys] at h
    simp only at h
    rw [findExistingHash_eq, upsert_keys_mem] at h
    rcases h with h | h
    · split at h
      · exact Or.inl ((removeFile_keys_sublist _ _).mem h)
      · exact Or.inl h
    · exact Or.inr h

theorem addImage_keys_nodup {s : IndexState} (p : FPath) (mt : Mtime) (fp : FP)
    (h : (registryKeys s).Nodup) : (registryKeys (addImage s p mt fp).1).Nodup := by
  rw [addImage]
  split
  · exact h
  · rw [registryKeys]
    simp only
    rw [findExistingHash_eq]
    apply upsert_keys_nodup
    split
    · exact (removeFile_keys_sublist _ _).nodup h
    · exact h

theorem addImage_count (p : FPath) {s : IndexState} (q : FPath) (mt : Mtime) (fp : FP)
    (hc : ∀ e ∈ s.hashToFiles, e.2.count p ≤ 1) :
    ∀ e ∈ ((addImage s q mt fp).1).hashToFiles, e.2.count p ≤ 1 := by
  rw [addImage]
  split
  · exact hc
  · simp only
    rw [findExistingHash_eq]
    by_cases hq : q = p
    · subst hq
      apply upsert_count
      split
      · exact removeFile_count _ hc
      · exact hc
    · intro e he
      rw [upsertBucket] at he
      have hc1 : ∀ e ∈ (if (alookup q s.fileMtimes).isSome then
          removeFile q s.hashToFiles else s.hashToFiles), e.2.count p ≤ 1 := by
        split
        · intro e he1
          obtain ⟨fs, hm, hcase⟩ := mem_removeFile he1
          rcases hcase with ⟨h1, _⟩ | ⟨h1, _⟩
          · rw [h1]; exact hc (e.1, fs) hm
          · rw [h1]
            have h2 : (fs.erase q).count p ≤ fs.count p := (List.erase_sublist _ _).count_le _
            have := hc (e.1, fs) hm
            simp only at this ⊢
            omega
        · exact hc
      split at he
      · next fs hl =>
        split at he
        · exact hc1 e he
        · rcases mem_aset he with h1 | ⟨_, h2⟩
          · exact hc1 e h1
          · rw [h2, List.count_append]
            have := hc1 _ (alookup_mem hl)
            have hq2 : List.count p [q] = 0 := by
              simp [List.count_singleton, hq]
            simp only at this ⊢
            omega
      · rcases List.mem_append.1 he with h1 | h1
        · exact hc1 e h1
        · simp only [List.mem_singleton] at h1
          subst h1
          simp [List.count_singleton, hq]

theorem addImage_wf (s : IndexState) (p : FPath) (mt : Mtime) (fp : FP)
    (h : treeWF s.bktree = true) : treeWF ((addImage s p mt fp).1).bktree = true := by
  rw [addImage]
  split
  · exact h
  · exact treeWF_add fp _ h

theorem addImage_nodes (s : IndexState) (p : FPath) (mt : Mtime) (fp : FP) (y : FP)
    (hy : y ∈ treeNodes s.bktree) : y ∈ treeNodes ((addImage s p mt fp).1).bktree := by
  rw [addImage]
  split
  · exact hy
  · exact (mem_treeNodes_add fp _ y).2 (Or.inl hy)

/-- Every registry key has a tree node: preserved by `add_image`. -/
theorem addImage_subset (s : IndexState) (p : FPath) (mt : Mtime) (fp : FP)
    (hinv : ∀ h, h ∈ registryKeys s → h ∈ treeNodes s.bktree) :
    ∀ h, h ∈ registryKeys (addImage s p mt fp).1 →
      h ∈ treeNodes ((addImage s p mt fp).1).bktree := by
  intro h hk
  by_cases hskip : alookup p s.fileMtimes = some mt
  · rw [addImage, if_pos hskip] at hk ⊢
    exact hinv h hk
  · rcases addImage_keys_mem s p mt fp h hk with h1 | h1
    · exact addImage_nodes s p mt fp h (hinv h h1)
    · subst h1
      rw [addImage, if_neg hskip]
      exact (mem_treeNodes_add h _ h).2 (Or.inr rfl)

/-- The reachable-state invariant: well-formed tree, duplicate-free
registry keys, every registry key stored in the tree, and every bucket
holding any given path at most once. -/
def IndexInv (s : IndexState) : Prop :=
  treeWF s.bktree = true ∧ (registryKeys s).Nodup ∧
    (∀ h, h ∈ registryKeys s → h ∈ treeNodes s.bktree) ∧
    (∀ p : FPath, ∀ e ∈ s.hashToFiles, e.2.count p ≤ 1)

theorem indexInv_empty : IndexInv emptyState := by
  refine ⟨rfl, by simp [registryKeys, emptyState], ?_, ?_⟩
  · intro h hk
    simp [registryKeys, emptyState] at hk
  · intro p e he
    simp [emptyState] at he

theorem indexInv_addImage {s : IndexState} (p : FPath) (mt : Mtime) (fp : FP)
    (h : IndexInv s) : IndexInv (addImage s p mt fp).1 := by
  obtain ⟨h1, h2, h3, h4⟩ := h
  exact ⟨addImage_wf s p mt fp h1, addImage_keys_nodup p mt fp h2,
    addImage_subset s p mt fp h3, fun q => addImage_count q p mt fp (h4 q)⟩

theorem indexInv_applyAdds (ops : List (FPath × Mtime × FP)) :
    ∀ {s : IndexState}, IndexInv s → IndexInv (applyAdds ops s) := by
  induction ops with
  | nil => exact fun h => h
  | cons op rest ih =>
    intro s h
    exact ih (indexInv_addImage op.1 op.2.1 op.2.2 h)

/-! ## Concrete fingerprints for witnesses -/

def fpA : FP := ⟨List.replicate 64 false, by decide⟩

def fpB : FP := ⟨true :: List.replicate 63 false, by decide⟩

/-- C1: soundness of pruned search, no false negatives.  For every
sequence of fingerprints inserted via `add`, every query `B` and
threshold `t`: if `A` was inserted and `d(A, B) ≤ t` then
`search(B, t)` contains the pair `(A, d(A, B))`.  The pruning rule
`d - t ≤ l ≤ d + t` loses no in-range point because the Hamming
distance satisfies the triangle inequality. -/
theorem C1_search_soundness (fps : List FP) (A B : FP) (t : Nat)
    (hA : A ∈ fps) (hd : hdist A B ≤ t) :
    (A, hdist A B) ∈ treeSearch (buildTree fps) B t := by
  rw [mem_treeSearch (treeWF_build fps)]
  exact ⟨(mem_treeNodes_build fps A).2 hA, hdist_comm A B, hdist_comm A B ▸ hd⟩

theorem C1_witness :
    fpA ∈ [fpA, fpB] ∧ hdist fpA fpB ≤ 2 ∧
      (fpA, hdist fpA fpB) ∈ treeSearch (buildTree [fpA, fpB]) fpB 2 :=
  ⟨by decide, by decide, C1_search_soundness [fpA, fpB] fpA fpB 2 (by decide) (by decide)⟩

/-- C6: insert idempotence.  For every reachable tree state (any tree is
built by a sequence of `add`s from a fresh tree), adding `f` twice gives
the very same tree — same structure and same `size` counter — as adding
it once; and adding a fingerprint already present (distance 0 to a
stored node) is a complete no-op. -/
theorem C6_insert_idempotent (fps : List FP) (f : FP) :
    ((buildTree fps).add f).add f = (buildTree fps).add f ∧
      (((buildTree fps).add f).add f).size = ((buildTree fps).add f).size ∧
      (f ∈ treeNodes (buildTree fps) → (buildTree fps).add f = buildTree fps) := by
  have hwf : treeWF ((buildTree fps).add f) = true :=
    treeWF_add f _ (treeWF_build fps)
  have hmem : f ∈ treeNodes ((buildTree fps).add f) :=
    (mem_treeNodes_add f _ f).2 (Or.inr rfl)
  have hid := tree_add_noop hwf hmem
  exact ⟨hid, by rw [hid], fun hf => tree_add_noop (treeWF_build fps) hf⟩

theorem C6_witness :
    ((buildTree [fpA]).add fpB).add fpB = (buildTree [fpA]).add fpB ∧
      (buildTree [fpA]).add fpA = buildTree [fpA] :=
  ⟨(C6_insert_idempotent [fpA] fpB).1,
    (C6_insert_idempotent [fpA] fpA).2.2 (by decide)⟩

/-- C10: search monotonicity under insertion.  Every `(item, distance)`
pair returned by `search(q, t)` is still returned after `add(x)`:
insertion only creates new leaves and never moves or relabels existing
nodes, so prior results are preserved (membership; order may change). -/
theorem C10_search_monotone (fps : List FP) (q x : FP) (t : Nat) (pr : FP × Nat)
    (h : pr ∈ treeSearch (buildTree fps) q t) :
    pr ∈ treeSearch ((buildTree fps).add x) q t := by
  obtain ⟨y, dd⟩ := pr
  rw [mem_treeSearch (treeWF_build fps)] at h
  rw [mem_treeSearch (treeWF_add x _ (treeWF_build fps))]
  obtain ⟨hy, hdd, hle⟩ := h
  exact ⟨(mem_treeNodes_add x _ y).2 (Or.inl hy), hdd, hle⟩

theorem C10_witness :
    (fpA, 0) ∈ treeSearch (buildTree [fpA]) fpA 0 ∧
      (fpA, 0) ∈ treeSearch ((buildTree [fpA]).add fpB) fpA 0 := by
  have h : (fpA, 0) ∈ treeSearch (buildTree [fpA]) fpA 0 :=
    (mem_treeSearch (by decide) fpA 0 fpA 0).2 ⟨by decide, by decide, by decide⟩
  exact ⟨h, C10_search_monotone [fpA] fpA fpB 0 (fpA, 0) h⟩

/-- C4: upsert re-association.  Indexing `p` with `fp1` and then
re-indexing `p` (changed mtime) with `fp2 ≠ fp1`: afterwards `p` is in
`fp2`'s file set and not in `fp1`'s, and if `fp1`'s file set became
empty its registry key is gone.  The `IndexInv` hypothesis carries the
reachable-state facts (duplicate-free keys, buckets listing a path at
most once); the `hfirst` hypothesis makes the first indexing a real
(non-skipped) one. -/
theorem C4_upsert_reassociation (s : IndexState) (p : FPath) (mt1 mt2 : Mtime)
    (fp1 fp2 : FP) (hfp : fp1 ≠ fp2) (hmt : mt1 ≠ mt2)
    (hfirst : alookup p s.fileMtimes ≠ some mt1) (hinv : IndexInv s) :
    p ∈ filesOf (addImage (addImage s p mt1 fp1).1 p mt2 fp2).1 fp2 ∧
      p ∉ filesOf (addImage (addImage s p mt1 fp1).1 p mt2 fp2).1 fp1 ∧
      (filesOf (addImage s p mt1 fp1).1 fp1 = [p] →
        fp1 ∉ registryKeys (addImage (addImage s p mt1 fp1).1 p mt2 fp2).1) := by
  have hinv1 : IndexInv (addImage s p mt1 fp1).1 := indexInv_addImage p mt1 fp1 hinv
  have h1mt : (addImage s p mt1 fp1).1.fileMtimes = aset p mt1 s.fileMtimes := by
    rw [addImage, if_neg hfirst]
  have hs1p : alookup p (addImage s p mt1 fp1).1.fileMtimes = some mt1 := by
    rw [h1mt, alookup_aset_self]
  have hsecond : alookup p (addImage s p mt1 fp1).1.fileMtimes ≠ some mt2 := by
    rw [hs1p]
    intro h
    injection h with h
    exact hmt h
  have h2reg : (addImage (addImage s p mt1 fp1).1 p mt2 fp2).1.hashToFiles =
      upsertBucket fp2 p (removeFile p (addImage s p mt1 fp1).1.hashToFiles) := by
    rw [addImage, if_neg hsecond]
    simp only [findExistingHash_eq, hs1p, Option.isSome_some, if_true]
  have h2keys : registryKeys (addImage (addImage s p mt1 fp1).1 p mt2 fp2).1 =
      (upsertBucket fp2 p (removeFile p (addImage s p mt1 fp1).1.hashToFiles)).map
        Prod.fst := by
    rw [registryKeys, h2reg]
  refine ⟨?_, ?_, ?_⟩
  · rw [filesOf, h2reg]
    exact upsert_self_mem fp2 p _
  · rw [filesOf, h2reg, alookup_upsert_ne hfp]
    rcases hl : alookup fp1 (removeFile p (addImage s p mt1 fp1).1.hashToFiles)
        with _ | fs
    · simp
    · simp only [Option.getD_some]
      exact removeFile_clears (hinv1.2.2.2 p) hl
  · intro hone
    rw [h2keys, upsert_keys_mem]
    rintro (hk | hk)
    · refine removeFile_drops_key hinv1.2.1 ?_ hk
      rw [filesOf] at hone
      rcases hl : alookup fp1 (addImage s p mt1 fp1).1.hashToFiles with _ | fs
      · rw [hl] at hone
        simp at hone
      · rw [hl] at hone
        simp only [Option.getD_some] at hone
        rw [hone]
    · exact hfp hk

def p4w : FPath := "a"

theorem C4_witness :
    p4w ∈ filesOf (addImage (addImage emptyState p4w 0 fpA).1 p4w 1 fpB).1 fpB ∧
      p4w ∉ filesOf (addImage (addImage emptyState p4w 0 fpA).1 p4w 1 fpB).1 fpA ∧
      fpA ∉ registryKeys (addImage (addImage emptyState p4w 0 fpA).1 p4w 1 fpB).1 := by
  have h := C4_upsert_reassociation emptyState p4w 0 1 fpA fpB (by decide) (by decide)
    (by decide) indexInv_empty
  exact ⟨h.1, h.2.1, h.2.2 (by decide)⟩

theorem aset_keys_mem {κ ν : Type} [DecidableEq κ] (k : κ) (v : ν) (r : List (κ × ν))
    (y : κ) : y ∈ (aset k v r).map Prod.fst ↔ y ∈ r.map Prod.fst ∨ y = k := by
  by_cases hk : k ∈ r.map Prod.fst
  · rw [aset_keys_of_mem v hk]
    exact ⟨Or.inl, fun h => h.elim id (fun he => he ▸ hk)⟩
  · rw [aset_of_not_mem v hk]
    simp

/-- C2, counterexample.  Start from a fresh index; index file `"a"` with
fingerprint `fpA`; re-index `"a"` (changed mtime) with `fpB`.  The stale
key `fpA` is removed from the registry, but its BK-tree node remains: the
tree's node set is strictly larger than the registry's key set after this
mutating operation, falsifying the claimed exact-equality invariant. -/
theorem C2_counterexample :
    fpA ∈ treeNodes (addImage (addImage emptyState "a" 0 fpA).1 "a" 1 fpB).1.bktree ∧
      fpA ∉ registryKeys (addImage (addImage emptyState "a" 0 fpA).1 "a" 1 fpB).1 := by
  decide

theorem loadLoop_exact :
    ∀ (entries : List (List Nat × List FPath)) (s0 : IndexState),
      (∀ h, h ∈ treeNodes s0.bktree ↔ h ∈ registryKeys s0) →
      ∀ s' b, loadLoop entries s0 = (s', true, b) →
        ∀ h, h ∈ treeNodes s'.bktree ↔ h ∈ registryKeys s' := by
  intro entries
  induction entries with
  | nil =>
    intro s0 hinv s' b hload h
    rw [loadLoop] at hload
    injection hload with h1 h2
    exact h1 ▸ hinv h
  | cons e rest ih =>
    intro s0 hinv s' b hload h
    obtain ⟨bs, files⟩ := e
    rw [loadLoop] at hload
    rcases hfb : fromBytes bs with _ | hx
    · rw [hfb] at hload
      simp only at hload
      injection hload with h1 h2
      injection h2 with h2 h3
      simp at h2
    · rw [hfb] at hload
      simp only at hload
      refine ih _ ?_ s' b hload h
      intro y
      show y ∈ treeNodes (s0.bktree.add hx) ↔
        y ∈ (aset hx files s0.hashToFiles).map Prod.fst
      rw [mem_treeNodes_add, aset_keys_mem, hinv y]
      rfl

/-- C2, amended.  The registry/tree synchronization invariant as claimed
fails only in one direction and only for `add_image`: every registry key
always has a tree node, but a re-indexing `add_image` can leave an orphan
tree node (see `C2_counterexample`).  Exact node-set/key-set equality does
hold after `_remove_deleted_files` whenever it removed something (the
tree is rebuilt from the registry keys; with nothing removed the state is
returned unchanged), and after a successful `load_index` into a fresh
index. -/
theorem C2_amended_invariant :
    (∀ (s : IndexState) (p : FPath) (mt : Mtime) (fp : FP),
      (∀ h, h ∈ registryKeys s → h ∈ treeNodes s.bktree) →
      ∀ h, h ∈ registryKeys (addImage s p mt fp).1 →
        h ∈ treeNodes (addImage s p mt fp).1.bktree) ∧
    (∀ (probe : FPath → Bool) (s : IndexState),
      ((removeDeletedFiles probe s).2 = 0 → (removeDeletedFiles probe s).1 = s) ∧
      (0 < (removeDeletedFiles probe s).2 →
        ∀ h, h ∈ treeNodes (removeDeletedFiles probe s).1.bktree ↔
          h ∈ registryKeys (removeDeletedFiles probe s).1)) ∧
    (∀ (f : IndexFile) (s' : IndexState) (b : Bool),
      loadIndex f emptyState = (s', true, b) →
      ∀ h, h ∈ treeNodes s'.bktree ↔ h ∈ registryKeys s') := by
  refine ⟨addImage_subset, ?_, ?_⟩
  · intro probe s
    rw [removeDeletedFiles]
    simp only
    constructor
    · intro hz
      have hnil : (s.fileMtimes.map Prod.fst).filter (fun p => !probe p) = [] :=
        List.length_eq_zero.1 hz
      rw [hnil]
      simp only [List.foldl_nil, List.length_nil, gt_iff_lt, Nat.lt_irrefl, if_false]
    · intro hpos h
      rw [if_pos hpos, mem_treeNodes_foldl]
      simp [treeNodes, emptyTree, registryKeys]
  · intro f s' b hload h
    cases f with
    | absent => simp [loadIndex] at hload
    | badContainer => simp [loadIndex] at hload
    | ioError => simp [loadIndex] at hload
    | payload d =>
      obtain ⟨mtOpt, htfOpt⟩ := d
      cases mtOpt with
      | none => simp [loadIndex] at hload
      | some mt =>
        cases htfOpt with
        | none => simp [loadIndex] at hload
        | some entries =>
          rw [loadIndex] at hload
          simp only at hload
          refine loadLoop_exact entries _ ?_ s' b hload h
          intro y
          simp [treeNodes, emptyTree, registryKeys, emptyState]

theorem C2_witness :
    fpA ∈ treeNodes (addImage emptyState "a" 0 fpA).1.bktree :=
  C2_amended_invariant.1 emptyState "a" 0 fpA
    (fun h hk => absurd hk (by simp [registryKeys, emptyState])) fpA (by decide)

/-- C8: unexpected persistence errors (anything other than the recognized
shape-`ValueError` and corruption exceptions, e.g. a permission error) are
reported as failure to the caller, with the in-memory state unchanged and
the index file left on disk (not deleted). -/
theorem C8_unexpected_error_conservative (s : IndexState) :
    loadIndex IndexFile.ioError s = (s, false, false) := rfl

/-- C7, counterexample.  A readable payload that lacks the
`hash_to_files` entry is a corrupt payload: `load_index` reports failure
and deletes the index file, but the `KeyError` fires only after
`file_mtimes` was already restored, so the in-memory state is NOT
cleared — the retained mtimes then suppress the claimed full re-sync. -/
theorem C7_counterexample :
    (loadIndex (IndexFile.payload ⟨some [("a", 5)], none⟩) emptyState).2.1 = false ∧
      (loadIndex (IndexFile.payload ⟨some [("a", 5)], none⟩) emptyState).2.2 = true ∧
      (loadIndex (IndexFile.payload ⟨some [("a", 5)], none⟩) emptyState).1.fileMtimes
        = [("a", 5)] ∧
      (loadIndex (IndexFile.payload ⟨some [("a", 5)], none⟩) emptyState).1.fileMtimes
        ≠ [] := by
  refine ⟨rfl, rfl, rfl, ?_⟩
  decide

theorem loadLoop_bad :
    ∀ (pre : List (List Nat × List FPath)) (s0 : IndexState) (bs : List Nat)
      (fs : List FPath) (post : List (List Nat × List FPath)),
      (∀ e ∈ pre, e.1.length = FPw) → bs.length ≠ FPw →
      ∃ T, loadLoop (pre ++ (bs, fs) :: post) s0 = (⟨T, [], []⟩, false, true) := by
  intro pre
  induction pre with
  | nil =>
    intro s0 bs fs post _ hbad
    refine ⟨s0.bktree, ?_⟩
    rw [List.nil_append, loadLoop]
    have : fromBytes bs = none := by
      rw [fromBytes, dif_neg hbad]
    rw [this]
  | cons e rest ih =>
    intro s0 bs fs post hgood hbad
    obtain ⟨ebs, efs⟩ := e
    have hel : ebs.length = FPw := hgood (ebs, efs) (List.mem_cons_self _ _)
    rw [List.cons_append, loadLoop]
    have hsome : fromBytes ebs = some ⟨ebs.map (fun b => b != 0), by simpa using hel⟩ := by
      rw [fromBytes, dif_pos hel]
    rw [hsome]
    exact ih _ bs fs post (fun e he => hgood e (List.mem_cons_of_mem _ he)) hbad

/-- C7, amended.  A fingerprint-byte-width mismatch or a corrupted
container/payload never raises: `load_index` returns failure and deletes
the index file.  In the width-mismatch case the mtime table and the
registry are cleared so a full re-sync happens (the partially rebuilt
tree is merely abandoned).  When the container or pickle is unreadable
nothing had been restored, so the state is simply left as it was; but a
readable payload lacking the `hash_to_files` entry keeps the mtime table
it had already restored instead of clearing it (see
`C7_counterexample`), and a payload lacking `file_mtimes` leaves the
state untouched. -/
theorem C7_amended_load_failure :
    (∀ (mt : List (FPath × Mtime)) (pre : List (List Nat × List FPath))
        (bs : List Nat) (fs : List FPath) (post : List (List Nat × List FPath)),
      (∀ e ∈ pre, e.1.length = FPw) → bs.length ≠ FPw →
      ∃ T, loadIndex
          (IndexFile.payload ⟨some mt, some (pre ++ (bs, fs) :: post)⟩) emptyState
        = (⟨T, [], []⟩, false, true)) ∧
    (∀ s : IndexState, loadIndex IndexFile.badContainer s = (s, false, true)) ∧
    (∀ (s : IndexState) (htf : Option (List (List Nat × List FPath))),
      loadIndex (IndexFile.payload ⟨none, htf⟩) s = (s, false, true)) ∧
    (∀ (s : IndexState) (mt : List (FPath × Mtime)),
      loadIndex (IndexFile.payload ⟨some mt, none⟩) s =
        ({ s with fileMtimes := mt }, false, true)) := by
  refine ⟨?_, fun s => rfl, fun s htf => rfl, fun s mt => rfl⟩
  intro mt pre bs fs post hgood hbad
  rw [loadIndex]
  exact loadLoop_bad pre _ bs fs post hgood hbad

theorem C7_witness :
    ∃ T, loadIndex (IndexFile.payload ⟨some [], some [([], [])]⟩) emptyState
      = (⟨T, [], []⟩, false, true) :=
  C7_amended_load_failure.1 [] [] [] [] [] (by simp) (by decide)

/-! ## C3: save/load round-trip -/

theorem fromBytes_toBytes (fp : FP) : fromBytes (toBytes fp) = some fp := by
  have hlen : (toBytes fp).length = FPw := by simp [toBytes, fp.2]
  rw [fromBytes, dif_pos hlen]
  congr 1
  apply Subtype.ext
  show (toBytes fp).map (fun b => b != 0) = fp.1
  rw [toBytes, List.map_map]
  have hb : ((fun b : Nat => b != 0) ∘ fun b : Bool => if b then (1 : Nat) else 0) = id := by
    funext b
    cases b <;> rfl
  rw [hb, List.map_id]

theorem loadLoop_roundtrip :
    ∀ (entries : List (FP × List FPath)) (s0 : IndexState),
      (∀ e ∈ entries, e.1 ∉ s0.hashToFiles.map Prod.fst) →
      (entries.map Prod.fst).Nodup →
      loadLoop (entries.map (fun e => (toBytes e.1, e.2))) s0 =
        (⟨(entries.map Prod.fst).foldl (fun T h => T.add h) s0.bktree,
          s0.hashToFiles ++ entries, s0.fileMtimes⟩, true, false) := by
  intro entries
  induction entries with
  | nil =>
    intro s0 _ _
    simp only [List.map_nil, List.foldl_nil, List.append_nil]
    rw [loadLoop]
  | cons e rest ih =>
    intro s0 hfresh hnd
    obtain ⟨h, files⟩ := e
    simp only [List.map_cons]
    rw [loadLoop]
    simp only [fromBytes_toBytes]
    have hnot : h ∉ s0.hashToFiles.map Prod.fst :=
      hfresh (h, files) (List.mem_cons_self _ _)
    have haset : aset h files s0.hashToFiles = s0.hashToFiles ++ [(h, files)] :=
      aset_of_not_mem files hnot
    simp only [List.map_cons, List.nodup_cons] at hnd
    rw [ih ⟨s0.bktree.add h, aset h files s0.hashToFiles, s0.fileMtimes⟩ ?_ hnd.2]
    · simp only [haset, List.foldl_cons, List.append_assoc, List.singleton_append]
    · intro e he
      rw [haset]
      simp only [List.map_append, List.map_cons, List.map_nil, List.mem_append,
        List.mem_singleton]
      push_neg
      refine ⟨fun hm => hfresh e (List.mem_cons_of_mem _ he) hm, ?_⟩
      intro heq
      exact hnd.1 (heq ▸ List.mem_map.2 ⟨e, he, rfl⟩)

/-- C3: save/load round-trip.  For every index state built by a sequence
of `add_image` operations from a fresh index, saving and then loading
into a fresh instance succeeds, reconstructs the registry (both the
fingerprint-to-files mapping and the mtime table) exactly, and yields a
tree whose search results are identical at the `(file, distance)` level
for every query fingerprint and every threshold. -/
theorem C3_save_load_roundtrip (ops : List (FPath × Mtime × FP)) (q : FP) (t : Nat) :
    (loadIndex (saveIndex (applyAdds ops emptyState)) emptyState).2.1 = true ∧
    (loadIndex (saveIndex (applyAdds ops emptyState)) emptyState).1.hashToFiles
      = (applyAdds ops emptyState).hashToFiles ∧
    (loadIndex (saveIndex (applyAdds ops emptyState)) emptyState).1.fileMtimes
      = (applyAdds ops emptyState).fileMtimes ∧
    ∀ (f : FPath) (dd : Nat),
      ((∃ h, (h, dd) ∈ treeSearch (applyAdds ops emptyState).bktree q t ∧
          f ∈ filesOf (applyAdds ops emptyState) h) ↔
        (∃ h, (h, dd) ∈ treeSearch
            (loadIndex (saveIndex (applyAdds ops emptyState)) emptyState).1.bktree q t ∧
          f ∈ filesOf (loadIndex (saveIndex (applyAdds ops emptyState)) emptyState).1 h)) := by
  obtain ⟨hwf, hnd, hsub, _⟩ := indexInv_applyAdds ops indexInv_empty
  have hrt := loadLoop_roundtrip (applyAdds ops emptyState).hashToFiles
    ⟨emptyTree, [], (applyAdds ops emptyState).fileMtimes⟩ (by simp) hnd
  have hload : loadIndex (saveIndex (applyAdds ops emptyState)) emptyState =
      (⟨((applyAdds ops emptyState).hashToFiles.map Prod.fst).foldl
          (fun T h => T.add h) emptyTree,
        (applyAdds ops emptyState).hashToFiles,
        (applyAdds ops emptyState).fileMtimes⟩, true, false) := by
    rw [saveIndex]
    simp only [loadIndex, emptyState]
    simp only [emptyState] at hrt
    rw [hrt]
    simp
  rw [hload]
  have hwfL : treeWF (((applyAdds ops emptyState).hashToFiles.map Prod.fst).foldl
      (fun T h => T.add h) emptyTree) = true :=
    treeWF_foldl _ emptyTree treeWF_empty
  refine ⟨rfl, rfl, rfl, ?_⟩
  intro f dd
  constructor
  · rintro ⟨h, hmem, hf⟩
    rw [mem_treeSearch hwf] at hmem
    refine ⟨h, ?_, hf⟩
    rw [mem_treeSearch hwfL]
    refine ⟨?_, hmem.2.1, hmem.2.2⟩
    rw [mem_treeNodes_foldl]
    exact Or.inr (mem_keys_of_filesOf hf)
  · rintro ⟨h, hmem, hf⟩
    rw [mem_treeSearch hwfL] at hmem
    refine ⟨h, ?_, hf⟩
    rw [mem_treeSearch hwf]
    refine ⟨?_, hmem.2.1, hmem.2.2⟩
    rcases (mem_treeNodes_foldl _ _ _).1 hmem.1 with h1 | h1
    · simp [treeNodes, emptyTree] at h1
    · exact hsub h h1

/-! ## Stable sorting by distance (C9) -/

theorem mem_insertSorted (p x : FPath × Nat) :
    ∀ l : List (FPath × Nat), x ∈ insertSorted p l ↔ x = p ∨ x ∈ l := by
  intro l
  induction l with
  | nil => simp [insertSorted]
  | cons q rest ih =>
    rw [insertSorted]
    split <;> simp only [List.mem_cons, ih] <;> tauto

theorem sorted_insertSorted (p : FPath × Nat) :
    ∀ {l : List (FPath × Nat)}, List.Pairwise (fun a b => a.2 ≤ b.2) l →
      List.Pairwise (fun a b => a.2 ≤ b.2) (insertSorted p l) := by
  intro l
  induction l with
  | nil => intro _; simp [insertSorted]
  | cons q rest ih =>
    intro hs
    rw [List.pairwise_cons] at hs
    obtain ⟨hq, hrest⟩ := hs
    rw [insertSorted]
    split
    · next hle =>
      rw [List.pairwise_cons]
      refine ⟨?_, ih hrest⟩
      intro x hx
      rcases (mem_insertSorted p x rest).1 hx with h1 | h1
      · rw [h1]; exact hle
      · exact hq x h1
    · next hlt =>
      push_neg at hlt
      rw [List.pairwise_cons]
      refine ⟨?_, List.pairwise_cons.2 ⟨hq, hrest⟩⟩
      intro x hx
      rcases List.mem_cons.1 hx with h1 | h1
      · rw [h1]; omega
      · have := hq x h1
        omega

/-- Stability of one insertion into a sorted list: the elements at any
given distance `d` keep their relative order, with the new element (if at
distance `d`) going last. -/
theorem filter_insertSorted (p : FPath × Nat) (d : Nat) :
    ∀ {l : List (FPath × Nat)}, List.Pairwise (fun a b => a.2 ≤ b.2) l →
      (insertSorted p l).filter (fun x => x.2 == d) =
        l.filter (fun x => x.2 == d) ++ (if p.2 = d then [p] else []) := by
  intro l
  induction l with
  | nil =>
    intro _
    rw [insertSorted]
    by_cases hpd : p.2 = d
    · simp [List.filter_cons, hpd]
    · simp [List.filter_cons, hpd]
  | cons q rest ih =>
    intro hs
    rw [List.pairwise_cons] at hs
    obtain ⟨hq, hrest⟩ := hs
    rw [insertSorted]
    split
    · next hle =>
      by_cases hq2 : (q.2 == d) = true
      · rw [List.filter_cons, List.filter_cons, if_pos hq2, if_pos hq2, ih hrest]
        simp
      · rw [List.filter_cons, List.filter_cons, if_neg hq2, if_neg hq2, ih hrest]
    · next hlt =>
      push_neg at hlt
      by_cases hpd : p.2 = d
      · have hre : rest.filter (fun x => x.2 == d) = [] := by
          apply List.filter_eq_nil_iff.2
          intro x hx
          have := hq x hx
          simp only [beq_iff_eq]
          omega
        have h1 : List.filter (fun x => x.2 == d) (p :: q :: rest) = [p] := by
          rw [List.filter_cons, if_pos (by simpa using hpd), List.filter_cons,
            if_neg (by simp only [beq_iff_eq]; omega), hre]
        have h2 : List.filter (fun x => x.2 == d) (q :: rest) = [] := by
          rw [List.filter_cons, if_neg (by simp only [beq_iff_eq]; omega), hre]
        rw [h1, h2, if_pos hpd, List.nil_append]
      · have h1 : List.filter (fun x => x.2 == d) (p :: q :: rest) =
            List.filter (fun x => x.2 == d) (q :: rest) := by
          rw [List.filter_cons, if_neg (by simpa using hpd)]
        rw [h1, if_neg hpd, List.append_nil]

theorem sortByDistance_spec :
    ∀ (l acc : List (FPath × Nat)), List.Pairwise (fun a b => a.2 ≤ b.2) acc →
      List.Pairwise (fun a b => a.2 ≤ b.2)
          (l.foldl (fun acc p => insertSorted p acc) acc) ∧
        ∀ d, (l.foldl (fun acc p => insertSorted p acc) acc).filter
            (fun x => x.2 == d) =
          acc.filter (fun x => x.2 == d) ++ l.filter (fun x => x.2 == d) := by
  intro l
  induction l with
  | nil =>
    intro acc hacc
    exact ⟨hacc, fun d => by simp⟩
  | cons p rest ih =>
    intro acc hacc
    rw [List.foldl_cons]
    obtain ⟨hs, hf⟩ := ih (insertSorted p acc) (sorted_insertSorted p hacc)
    refine ⟨hs, ?_⟩
    intro d
    rw [hf d, filter_insertSorted p d hacc, List.filter_cons]
    by_cases hpd : p.2 = d
    · rw [if_pos hpd, if_pos (by simpa using hpd)]
      simp
    · rw [if_neg hpd, if_neg (by simpa using hpd)]
      simp

theorem sortByDistance_sorted (l : List (FPath × Nat)) :
    List.Pairwise (fun a b => a.2 ≤ b.2) (sortByDistance l) :=
  (sortByDistance_spec l [] (by simp)).1

theorem sortByDistance_filter (l : List (FPath × Nat)) (d : Nat) :
    (sortByDistance l).filter (fun x => x.2 == d) = l.filter (fun x => x.2 == d) := by
  have := (sortByDistance_spec l [] (by simp)).2 d
  simpa [sortByDistance] using this

theorem mem_sortByDistance (l : List (FPath × Nat)) (x : FPath × Nat) :
    x ∈ sortByDistance l ↔ x ∈ l := by
  have h1 : x ∈ sortByDistance l ↔ x ∈ (sortByDistance l).filter (fun y => y.2 == x.2) := by
    simp [List.mem_filter]
  have h2 : x ∈ l ↔ x ∈ l.filter (fun y => y.2 == x.2) := by
    simp [List.mem_filter]
  rw [h1, sortByDistance_filter, ← h2]

/-- C9: single-image duplicate query.  `find_duplicates` returns exactly
the `(file, distance)` pairs obtained by searching the tree and
flattening matched fingerprints to files through the registry, minus
every file whose basename equals the query's basename; the result is
sorted by ascending distance, and pairs at equal distance keep the
encounter order of the flattening pass (stable sort). -/
theorem C9_find_duplicates (basename : FPath → FPath) (s : IndexState) (qfp : FP)
    (qpath : FPath) (t : Nat) :
    List.Pairwise (fun a b => a.2 ≤ b.2) (findDuplicates basename s qfp qpath t) ∧
      (∀ pr : FPath × Nat, pr ∈ findDuplicates basename s qfp qpath t ↔
        ∃ h, (h, pr.2) ∈ treeSearch s.bktree qfp t ∧ pr.1 ∈ filesOf s h ∧
          basename pr.1 ≠ basename qpath) ∧
      (∀ d, (findDuplicates basename s qfp qpath t).filter (fun x => x.2 == d) =
        (dupResults basename s qfp qpath t).filter (fun x => x.2 == d)) := by
  refine ⟨sortByDistance_sorted _, ?_, fun d => sortByDistance_filter _ d⟩
  intro pr
  rw [findDuplicates, mem_sortByDistance, dupResults, List.mem_flatMap]
  constructor
  · rintro ⟨hd, hmem, hpr⟩
    obtain ⟨f, hf, hfe⟩ := List.mem_map.1 hpr
    obtain ⟨hfb, hbne⟩ := List.mem_filter.1 hf
    refine ⟨hd.1, ?_, ?_, ?_⟩
    · have : pr.2 = hd.2 := by rw [← hfe]
      rw [this]
      exact hmem
    · have : pr.1 = f := by rw [← hfe]
      rw [this]
      exact hfb
    · have : pr.1 = f := by rw [← hfe]
      rw [this]
      simpa using hbne
  · rintro ⟨h, hmem, hf, hbne⟩
    refine ⟨(h, pr.2), hmem, ?_⟩
    apply List.mem_map.2
    refine ⟨pr.1, ?_, rfl⟩
    apply List.mem_filter.2
    exact ⟨hf, by simpa using hbne⟩

/-! ## Distinctness of stored fingerprints and of search results -/

theorem nodesChildren_nodup {it : FP} :
    ∀ {cs : List (Nat × BKNode)}, keysNodupB cs = true → wfChildren it cs = true →
      (∀ l c, (l, c) ∈ cs → c.wfb = true → c.nodes.Nodup) →
      (nodesChildren cs).Nodup := by
  intro cs
  induction cs with
  | nil => intro _ _ _; simp [nodesChildren]
  | cons e rest ihl =>
    intro hnd hch IH
    obtain ⟨l, c⟩ := e
    obtain ⟨hne, hndr⟩ := keysNodupB_cons.1 hnd
    obtain ⟨⟨hl0, hdists, hcw⟩, hchr⟩ := wfChildren_cons_iff.1 hch
    rw [nodesChildren]
    refine List.Nodup.append ?_ ?_ ?_
    · exact IH l c (List.mem_cons_self _ _) hcw
    · exact ihl hndr hchr (fun l' c' hm' => IH l' c' (List.mem_cons_of_mem _ hm'))
    · rw [List.disjoint_left]
      intro x hx1 hx2
      obtain ⟨l', c', hm', hxc'⟩ := mem_nodesChildren.1 hx2
      obtain ⟨_, hdists', _⟩ := wfChildren_mem hchr hm'
      exact hne (l', c') hm' (by rw [← hdists' x hxc', hdists x hx1])

theorem nodes_nodup : ∀ n : BKNode, n.wfb = true → n.nodes.Nodup := by
  intro n
  induction n using BKNode.ind with
  | _ it cs IH =>
    intro hwf
    obtain ⟨hnd, hch⟩ := wfb_mk_iff.1 hwf
    rw [BKNode.nodes]
    rw [List.nodup_cons]
    constructor
    · intro hx
      obtain ⟨l, c, hm, hxc⟩ := mem_nodesChildren.1 hx
      obtain ⟨hl0, hdists, _⟩ := wfChildren_mem hch hm
      exact hl0 (by rw [← hdists it hxc, hdist_self])
    · exact nodesChildren_nodup hnd hch (fun l c hm hw => IH l c hm hw)

theorem nodup_flatten_map (f : BKNode → List FP) :
    ∀ cl : List BKNode, (∀ c ∈ cl, (f c).Nodup) →
      List.Pairwise (fun c1 c2 => ∀ x, x ∈ f c1 → x ∉ f c2) cl →
      ((cl.map f).flatten).Nodup := by
  intro cl
  induction cl with
  | nil => intro _ _; simp
  | cons c rest ih =>
    intro h1 h2
    rw [List.pairwise_cons] at h2
    rw [List.map_cons, List.flatten_cons]
    refine List.Nodup.append (h1 c (List.mem_cons_self _ _))
      (ih (fun c' hc' => h1 c' (List.mem_cons_of_mem _ hc')) h2.2) ?_
    rw [List.disjoint_left]
    intro x hx1 hx2
    obtain ⟨lst, hlst, hxl⟩ := List.mem_flatten.1 hx2
    obtain ⟨c', hc', hfc'⟩ := List.mem_map.1 hlst
    exact h2.1 c' hc' x hx1 (hfc' ▸ hxl)

theorem pairwise_filterMap_lookup {it : FP} {cs : List (Nat × BKNode)}
    (hnd : keysNodupB cs = true) (hch : wfChildren it cs = true) :
    ∀ {ds : List Nat}, ds.Nodup →
      List.Pairwise (fun c1 c2 => ∀ x, x ∈ c1.nodes → x ∉ c2.nodes)
        (ds.filterMap (fun l => lookupChild l cs)) := by
  have key : ∀ l1 l2 c1 c2, l1 ≠ l2 → lookupChild l1 cs = some c1 →
      lookupChild l2 cs = some c2 → ∀ x, x ∈ c1.nodes → x ∉ c2.nodes := by
    intro l1 l2 c1 c2 hne hg1 hg2 x hx1 hx2
    obtain ⟨_, hd1, _⟩ := wfChildren_mem hch (lookupChild_eq_some hg1)
    obtain ⟨_, hd2, _⟩ := wfChildren_mem hch (lookupChild_eq_some hg2)
    exact hne (by rw [← hd1 x hx1, hd2 x hx2])
  intro ds
  induction ds with
  | nil => intro _; simp
  | cons l rest ih =>
    intro hnds
    rw [List.nodup_cons] at hnds
    rw [List.filterMap_cons]
    rcases hg : lookupChild l cs with _ | c
    · exact ih hnds.2
    · rw [List.pairwise_cons]
      refine ⟨?_, ih hnds.2⟩
      intro c2 hc2 x hx1
      obtain ⟨l2, hl2, hg2⟩ := List.mem_filterMap.1 hc2
      exact key l l2 c c2 (fun he => hnds.1 (he ▸ hl2)) hg hg2 x hx1

theorem mem_fst_searchRec_nodes {q : FP} {t : Nat} {c : BKNode} {x : FP}
    (h : x ∈ (searchRec q t c).map Prod.fst) : x ∈ c.nodes := by
  obtain ⟨pr, hpr, he⟩ := List.mem_map.1 h
  have := searchRec_sound q t c pr.1 pr.2 hpr
  exact he ▸ this.1

/-- On a well-formed tree, the fingerprints of the search results are
pairwise distinct: `search` visits each stored fingerprint at most once,
so "more than one result" means "more than one distinct fingerprint". -/
theorem searchRec_fst_nodup (q : FP) (t : Nat) :
    ∀ n : BKNode, n.wfb = true → ((searchRec q t n).map Prod.fst).Nodup := by
  intro n
  induction n using BKNode.ind with
  | _ it cs IH =>
    intro hwf
    obtain ⟨hnd, hch⟩ := wfb_mk_iff.1 hwf
    rw [searchRec_def, List.map_append, List.map_flatten, List.map_map]
    have hflat : (((rangeChildren (hdist q it) t cs).reverse.map
        (List.map Prod.fst ∘ searchRec q t)).flatten).Nodup := by
      apply nodup_flatten_map (fun c => (searchRec q t c).map Prod.fst)
      · intro c hc
        obtain ⟨l, hm⟩ := mem_rangeChildren (List.mem_reverse.1 hc)
        exact IH l c hm (wfChildren_mem hch hm).2.2
      · rw [List.pairwise_reverse]
        refine List.Pairwise.imp ?_
          (pairwise_filterMap_lookup hnd hch (nodup_scanLabels (hdist q it) t))
        intro c1 c2 hdisj x hx2 hx1
        exact hdisj x (mem_fst_searchRec_nodes hx1) (mem_fst_searchRec_nodes hx2)
    by_cases hle : hdist q it ≤ t
    · rw [if_pos hle]
      rw [List.map_cons, List.map_nil]
      rw [show ([it] : List FP) ++ _ = it :: _ from List.singleton_append]
      rw [List.nodup_cons]
      refine ⟨?_, hflat⟩
      intro hx
      obtain ⟨lst, hlst, hxl⟩ := List.mem_flatten.1 hx
      obtain ⟨c, hc, hfc⟩ := List.mem_map.1 hlst
      obtain ⟨l, hm⟩ := mem_rangeChildren (List.mem_reverse.1 hc)
      obtain ⟨hl0, hdists, _⟩ := wfChildren_mem hch hm
      have hin : it ∈ c.nodes := mem_fst_searchRec_nodes (x := it) (hfc ▸ hxl)
      exact hl0 (by rw [← hdists it hin, hdist_self])
    · rw [if_neg hle, List.map_nil, List.nil_append]
      exact hflat

theorem treeSearch_fst_nodup {T : BKTree} (hwf : treeWF T = true) (q : FP) (t : Nat) :
    ((treeSearch T q t).map Prod.fst).Nodup := by
  rw [treeSearch_eq]
  rcases T with ⟨_ | r, sz⟩
  · simp
  · exact searchRec_fst_nodup q t r hwf

/-- The emission condition of `find_all_duplicate_groups`: more than one
matched fingerprint, or matched fingerprints collectively mapping to more
than one file. -/
def emitCond (s : IndexState) (t : Nat) (h : FP) : Prop :=
  (treeSearch s.bktree h t).length > 1 ∨
    totalFilesOf s.hashToFiles (treeSearch s.bktree h t) > 1

instance (s : IndexState) (t : Nat) (h : FP) : Decidable (emitCond s t h) := by
  rw [emitCond]
  infer_instance

theorem groupsLoop_spec (s : IndexState) (t : Nat) :
    ∀ (keys processed : List FP),
      (∀ h ∈ keys, (h, 0) ∈ treeSearch s.bktree h t) →
      ∃ S : List FP, S.Sublist keys ∧
        (groupsLoop s t keys processed).1 =
          S.map (fun h => groupTriples s.hashToFiles (treeSearch s.bktree h t)) ∧
        (∀ h ∈ S, emitCond s t h ∧ h ∉ processed) ∧
        (∀ x, x ∈ (groupsLoop s t keys processed).2 ↔
          x ∈ processed ∨ ∃ h ∈ S, x ∈ (treeSearch s.bktree h t).map Prod.fst) ∧
        (∀ h ∈ keys, emitCond s t h → h ∈ (groupsLoop s t keys processed).2) := by
  intro keys
  induction keys with
  | nil =>
    intro processed _
    refine ⟨[], List.Sublist.refl _, ?_, ?_, ?_, ?_⟩
    · rw [groupsLoop]
      rfl
    · intro h hm; simp at hm
    · intro x
      rw [groupsLoop]
      simp
    · intro h hm; simp at hm
  | cons h rest ih =>
    intro processed hself
    have hselfr : ∀ h' ∈ rest, (h', 0) ∈ treeSearch s.bktree h' t :=
      fun h' hm => hself h' (List.mem_cons_of_mem _ hm)
    by_cases hmem : h ∈ processed
    · obtain ⟨S, hsub, hgr, hcond, hproc, hcompl⟩ := ih processed hselfr
      refine ⟨S, hsub.trans (List.sublist_cons_self _ _), ?_, hcond, ?_, ?_⟩
      · rw [groupsLoop, if_pos hmem]
        exact hgr
      · intro x
        rw [groupsLoop, if_pos hmem]
        exact hproc x
      · intro h' hm' hc'
        rw [groupsLoop, if_pos hmem]
        rcases List.mem_cons.1 hm' with h1 | h1
        · subst h1
          exact (hproc h').2 (Or.inl hmem)
        · exact hcompl h' h1 hc'
    · by_cases hc : emitCond s t h
      · have hcb : ((treeSearch s.bktree h t).length > 1 ∨
            totalFilesOf s.hashToFiles (treeSearch s.bktree h t) > 1) := hc
        obtain ⟨S, hsub, hgr, hcond, hproc, hcompl⟩ :=
          ih (processed ++ (treeSearch s.bktree h t).map Prod.fst) hselfr
        refine ⟨h :: S, hsub.cons₂ _, ?_, ?_, ?_, ?_⟩
        · rw [groupsLoop, if_neg hmem, if_pos hcb]
          simp only [List.map_cons]
          rw [hgr]
        · intro h' hm'
          rcases List.mem_cons.1 hm' with h1 | h1
          · subst h1
            exact ⟨hc, hmem⟩
          · obtain ⟨hc', hp'⟩ := hcond h' h1
            exact ⟨hc', fun hxx => hp' (List.mem_append_left _ hxx)⟩
        · intro x
          rw [groupsLoop, if_neg hmem, if_pos hcb]
          simp only
          rw [hproc x]
          simp only [List.mem_append, List.mem_cons]
          constructor
          · rintro ((h1 | h1) | ⟨h', hm', hx⟩)
            · exact Or.inl h1
            · exact Or.inr ⟨h, Or.inl rfl, h1⟩
            · exact Or.inr ⟨h', Or.inr hm', hx⟩
          · rintro (h1 | ⟨h', hm' | hm', hx⟩)
            · exact Or.inl (Or.inl h1)
            · subst hm'
              exact Or.inl (Or.inr hx)
            · exact Or.inr ⟨h', hm', hx⟩
        · intro h' hm' hc'
          rw [groupsLoop, if_neg hmem, if_pos hcb]
          simp only
          rcases List.mem_cons.1 hm' with h1 | h1
          · subst h1
            apply (hproc h').2
            apply Or.inl
            apply List.mem_append_right
            exact List.mem_map.2 ⟨(h', 0), hself h' (List.mem_cons_self _ _), rfl⟩
          · exact hcompl h' h1 hc'
      · have hcb : ¬((treeSearch s.bktree h t).length > 1 ∨
            totalFilesOf s.hashToFiles (treeSearch s.bktree h t) > 1) := hc
        obtain ⟨S, hsub, hgr, hcond, hproc, hcompl⟩ := ih processed hselfr
        refine ⟨S, hsub.trans (List.sublist_cons_self _ _), ?_, hcond, ?_, ?_⟩
        · rw [groupsLoop, if_neg hmem, if_neg hcb]
          exact hgr
        · intro x
          rw [groupsLoop, if_neg hmem, if_neg hcb]
          exact hproc x
        · intro h' hm' hc'
          rw [groupsLoop, if_neg hmem, if_neg hcb]
          rcases List.mem_cons.1 hm' with h1 | h1
          · subst h1
            exact absurd hc' hc
          · exact hcompl h' h1 hc'

theorem bucketRead_mem {r : List (FP × List FPath)} {h : FP}
    (hm : h ∈ r.map Prod.fst) :
    bucketRead r h = ((alookup h r).getD [], r) := by
  rw [bucketRead]
  rcases hl : alookup h r with _ | fs
  · exact absurd hm (alookup_eq_none.1 hl)
  · rfl

theorem totalFilesRead_pure {r : List (FP × List FPath)} :
    ∀ {sim : List (FP × Nat)}, (∀ hd ∈ sim, hd.1 ∈ r.map Prod.fst) →
      totalFilesRead r sim = (totalFilesOf r sim, r) := by
  intro sim
  induction sim with
  | nil => intro _; rfl
  | cons hd rest ih =>
    intro hcov
    simp only [totalFilesRead]
    rw [bucketRead_mem (hcov hd (List.mem_cons_self _ _))]
    simp only
    rw [ih (fun hd' hm' => hcov hd' (List.mem_cons_of_mem _ hm'))]
    simp [totalFilesOf]

theorem buildGroup_pure {r : List (FP × List FPath)} :
    ∀ {sim : List (FP × Nat)} (processed : List FP),
      (∀ hd ∈ sim, hd.1 ∈ r.map Prod.fst) →
      buildGroup r processed sim =
        (groupTriples r sim, r, processed ++ sim.map Prod.fst) := by
  intro sim
  induction sim with
  | nil => intro processed _; simp [buildGroup, groupTriples]
  | cons hd rest ih =>
    intro processed hcov
    simp only [buildGroup]
    rw [bucketRead_mem (hcov hd (List.mem_cons_self _ _))]
    simp only
    rw [ih (processed ++ [hd.1]) (fun hd' hm' => hcov hd' (List.mem_cons_of_mem _ hm'))]
    simp [groupTriples, List.append_assoc]

/-- On runs in which every fingerprint matched by an executed search is a
registry key, no bucket read materialises anything, the dict never grows,
the iterator guard never fires, and `groupsLoopE` computes exactly the
mutation-free reference loop. -/
theorem groupsLoopE_eq_pure (s : IndexState) (t : Nat) :
    ∀ (keys processed : List FP),
      (∀ h ∈ keys, ∀ pr ∈ treeSearch s.bktree h t,
        pr.1 ∈ s.hashToFiles.map Prod.fst) →
      groupsLoopE s.bktree t s.hashToFiles.length keys s.hashToFiles processed =
        Except.ok ((groupsLoop s t keys processed).1, s.hashToFiles,
          (groupsLoop s t keys processed).2) := by
  intro keys
  induction keys with
  | nil =>
    intro processed _
    rw [groupsLoopE, groupsLoop, if_pos rfl]
  | cons h rest ih =>
    intro processed hcov
    have hsim : ∀ pr ∈ treeSearch s.bktree h t, pr.1 ∈ s.hashToFiles.map Prod.fst :=
      hcov h (List.mem_cons_self _ _)
    have hcovr : ∀ h' ∈ rest, ∀ pr ∈ treeSearch s.bktree h' t,
        pr.1 ∈ s.hashToFiles.map Prod.fst :=
      fun h' hm' => hcov h' (List.mem_cons_of_mem _ hm')
    rw [groupsLoopE, groupsLoop, if_neg (fun hx => hx rfl)]
    by_cases hmem : h ∈ processed
    · rw [if_pos hmem, if_pos hmem]
      exact ih processed hcovr
    · rw [if_neg hmem, if_neg hmem]
      simp only
      rw [totalFilesRead_pure hsim]
      simp only
      by_cases hc : (treeSearch s.bktree h t).length > 1 ∨
          totalFilesOf s.hashToFiles (treeSearch s.bktree h t) > 1
      · rw [if_pos hc, if_pos hc]
        rw [buildGroup_pure processed hsim]
        simp only
        rw [ih (processed ++ (treeSearch s.bktree h t).map Prod.fst) hcovr]
      · rw [if_neg hc, if_neg hc]
        exact ih processed hcovr

/-- C5, counterexample.  Take the reachable orphan state of
`C2_counterexample` (file `"a"` re-indexed from `fpA` to `fpB`: registry
`[(fpB, ["a"])]`, tree still holding `fpA`) and threshold 1.  The only
registry key `fpB` is searched; the search finds the orphan `fpA`; the
`defaultdict` access inside the `total_files` sum inserts the missing key
`fpA` into `hash_to_files` while its `keys()` view is being iterated, and
the next iterator advance raises `RuntimeError`: the function errors out
instead of emitting the claimed groups. -/
theorem C5_counterexample :
    findAllDuplicateGroupsE
      (addImage (addImage emptyState "a" 0 fpA).1 "a" 1 fpB).1 1 =
      Except.error () := by
  have hreg : (addImage (addImage emptyState "a" 0 fpA).1 "a" 1 fpB).1.hashToFiles
      = [(fpB, ["a"])] := by decide
  have htree : (addImage (addImage emptyState "a" 0 fpA).1 "a" 1 fpB).1.bktree
      = ⟨some (BKNode.mk fpA [(1, BKNode.mk fpB [])]), 2⟩ := rfl
  have hts : treeSearch (⟨some (BKNode.mk fpA [(1, BKNode.mk fpB [])]), 2⟩ : BKTree)
      fpB 1 = [(fpA, 1), (fpB, 0)] := by
    rw [treeSearch_eq]
    show searchRec fpB 1 (BKNode.mk fpA [(1, BKNode.mk fpB [])]) = [(fpA, 1), (fpB, 0)]
    rw [searchRec_def]
    rw [show hdist fpB fpA = 1 from rfl]
    rw [show rangeChildren 1 1 [(1, BKNode.mk fpB [])] = [BKNode.mk fpB []] from rfl]
    rw [if_pos (le_refl 1)]
    rw [show ([BKNode.mk fpB []]).reverse = [BKNode.mk fpB []] from rfl]
    rw [List.map_cons, List.map_nil, List.flatten_cons, List.flatten_nil]
    rw [searchRec_def]
    rw [show hdist fpB fpB = 0 from rfl]
    rw [if_pos (Nat.zero_le 1)]
    rw [show rangeChildren 0 1 ([] : List (Nat × BKNode)) = [] from rfl]
    simp
  rw [findAllDuplicateGroupsE, hreg, htree]
  simp only [List.map_cons, List.map_nil, List.length_cons, List.length_nil]
  rw [groupsLoopE]
  rw [if_neg (by decide : ¬(([(fpB, ["a"])] : List (FP × List FPath)).length ≠ 0 + 1))]
  rw [if_neg (List.not_mem_nil fpB)]
  simp only
  rw [hts]
  rfl

/-- C5, amended.  The claimed behaviour holds exactly on states where
every fingerprint reached by the executed searches is a registry key — in
particular whenever every tree node has a registry key (`hcov`): then
search results carry pairwise-distinct fingerprints (so the code's
`len(similar_hashes) > 1` test is "more than one distinct fingerprint"),
and `find_all_duplicate_groups` returns (without raising) one group per
selected not-yet-visited registry fingerprint whose search has more than
one distinct fingerprint or collectively maps to more than one file, each
group containing every `(file, fingerprint, distance)` triple of the
matched fingerprints, with the visited set exactly the matched
fingerprints of the emitted searches and no qualifying fingerprint left
unvisited.  On reachable orphan states the function instead raises
`RuntimeError` (see `C5_counterexample`). -/
theorem C5_amended_duplicate_groups (s : IndexState) (t : Nat)
    (hwf : treeWF s.bktree = true)
    (hself : ∀ h ∈ s.hashToFiles.map Prod.fst, (h, 0) ∈ treeSearch s.bktree h t)
    (hcov : ∀ y ∈ treeNodes s.bktree, y ∈ s.hashToFiles.map Prod.fst) :
    (∀ h : FP, ((treeSearch s.bktree h t).map Prod.fst).Nodup) ∧
    ∃ (S P : List FP), S.Sublist (s.hashToFiles.map Prod.fst) ∧
      groupsLoopE s.bktree t s.hashToFiles.length (s.hashToFiles.map Prod.fst)
          s.hashToFiles [] =
        Except.ok
          (S.map (fun h => groupTriples s.hashToFiles (treeSearch s.bktree h t)),
            s.hashToFiles, P) ∧
      findAllDuplicateGroupsE s t =
        Except.ok
          (S.map (fun h => groupTriples s.hashToFiles (treeSearch s.bktree h t))) ∧
      (∀ h ∈ S, emitCond s t h) ∧
      (∀ x, x ∈ P ↔ ∃ h ∈ S, x ∈ (treeSearch s.bktree h t).map Prod.fst) ∧
      (∀ h ∈ s.hashToFiles.map Prod.fst, emitCond s t h → h ∈ P) := by
  have hscov : ∀ h ∈ s.hashToFiles.map Prod.fst,
      ∀ pr ∈ treeSearch s.bktree h t, pr.1 ∈ s.hashToFiles.map Prod.fst := by
    intro h _ pr hpr
    obtain ⟨hn, _, _⟩ := (mem_treeSearch hwf h t pr.1 pr.2).1 hpr
    exact hcov pr.1 hn
  refine ⟨fun h => treeSearch_fst_nodup hwf h t, ?_⟩
  obtain ⟨S, hsub, hgr, hcond, hproc, hcompl⟩ :=
    groupsLoop_spec s t (s.hashToFiles.map Prod.fst) [] hself
  have heq := groupsLoopE_eq_pure s t (s.hashToFiles.map Prod.fst) [] hscov
  refine ⟨S, (groupsLoop s t (s.hashToFiles.map Prod.fst) []).2, hsub, ?_, ?_,
    fun h hm => (hcond h hm).1, ?_, hcompl⟩
  · rw [heq, hgr]
  · rw [findAllDuplicateGroupsE, heq]
    simp only [Except.map]
    rw [hgr]
  · intro x
    rw [hproc x]
    simp

def s5w : IndexState := (addImage emptyState "a" 0 fpA).1

theorem C5_witness :
    (∀ h : FP, ((treeSearch s5w.bktree h 0).map Prod.fst).Nodup) ∧
    ∃ (S P : List FP), S.Sublist (s5w.hashToFiles.map Prod.fst) ∧
      groupsLoopE s5w.bktree 0 s5w.hashToFiles.length (s5w.hashToFiles.map Prod.fst)
          s5w.hashToFiles [] =
        Except.ok
          (S.map (fun h => groupTriples s5w.hashToFiles (treeSearch s5w.bktree h 0)),
            s5w.hashToFiles, P) ∧
      findAllDuplicateGroupsE s5w 0 =
        Except.ok
          (S.map (fun h => groupTriples s5w.hashToFiles (treeSearch s5w.bktree h 0))) ∧
      (∀ h ∈ S, emitCond s5w 0 h) ∧
      (∀ x, x ∈ P ↔ ∃ h ∈ S, x ∈ (treeSearch s5w.bktree h 0).map Prod.fst) ∧
      (∀ h ∈ s5w.hashToFiles.map Prod.fst, emitCond s5w 0 h → h ∈ P) :=
  C5_amended_duplicate_groups s5w 0 (by decide)
    (by
      intro h hm
      rw [show s5w.hashToFiles.map Prod.fst = [fpA] from by decide,
        List.mem_singleton] at hm
      subst hm
      exact (mem_treeSearch (by decide) fpA 0 fpA 0).2 ⟨by decide, by decide, by decide⟩)
    (by
      intro y hy
      rw [show treeNodes s5w.bktree = [fpA] from by decide, List.mem_singleton] at hy
      subst hy
      decide)
